import Mathlib

/-!
# Verification of the `happyeyeballs` connection-racing library

This file gives a shallow embedding of `src/happyeyeballs/__init__.py`:

* `interleave_family` — the pure address-family interleaving generator,
  embedded directly (grouping into per-family queues in first-appearance
  order, then round-robin emission).
* `connect_addresses` / `connect_host` — the connection racer, embedded as
  a deterministic step function over an explicit `RaceState`, parameterised
  by an `Env` oracle that decides the outcome of each external primitive
  (socket construction, non-blocking connect, readiness polling, the clock).
  One `raceStep` models one iteration of the Python `while True:` loop,
  including the `continue` path; the `finally:` block is the `cleanup`
  function, applied on every exit path.

Machine-level details that the Python runtime supplies are made explicit:
socket handles are `Nat` identifiers allocated in construction order, the
clock is rational-valued, and nontermination of the loop (possible when the
selector never reports events and `timeout == 0`) is modelled by fuel, with
the `outOfFuel` outcome standing for a still-running loop.
-/

namespace HappyEyeballs

/-- The `AddressTuple` union from the source: an IPv4 `(host, port)` pair, an
IPv6 `(host, port, flowinfo, scope_id)` tuple, or a packet-level pair. -/
inductive Addr where
  | inet (host : String) (port : Nat)
  | inet6 (host : String) (port : Nat) (flowinfo : Nat) (scopeid : Nat)
  | packet (ifindex : Nat) (data : List Nat)
deriving DecidableEq, Repr

/-- The `AddressInfoTuple` from the source:
`(family, type, proto, canonname, sockaddr)` as returned by `getaddrinfo`. -/
structure AddressInfoTuple where
  family : Nat
  kind : Nat
  proto : Nat
  canonname : String
  sockaddr : Addr
deriving DecidableEq, Repr

/-! ## `interleave_family`

The Python generator builds a `defaultdict(deque)` keyed by `info[0]`
(the address family); Python dicts preserve insertion order, so the grouping
is an association list in family first-appearance order.  It then repeatedly
scans the groups, popping one element from each non-empty queue and removing
queues found empty, until no group remains. -/

/-- Append `info` to the queue of its family, or create a new queue at the
end (dict insertion order) if the family is new.  One step of building the
`grouped` dict of `interleave_family`. -/
def addToGroup (g : List (Nat × List AddressInfoTuple)) (info : AddressInfoTuple) :
    List (Nat × List AddressInfoTuple) :=
  match g with
  | [] => [(info.family, [info])]
  | p :: rest =>
      if p.1 = info.family then (p.1, p.2 ++ [info]) :: rest
      else p :: addToGroup rest info

/-- The `grouped` dict of `interleave_family`: per-family queues in family
first-appearance order, each queue in arrival order. -/
def groupByFamily (infos : List AddressInfoTuple) : List (Nat × List AddressInfoTuple) :=
  infos.foldl addToGroup []

/-- One pass of the `for family, values in grouped.items()` scan: yield the
head of every non-empty queue (in group order) and drop exhausted families.
Returns (emitted this round, surviving groups). -/
def interleaveRound :
    List (Nat × List AddressInfoTuple) →
      List AddressInfoTuple × List (Nat × List AddressInfoTuple)
  | [] => ([], [])
  | (_, []) :: rest => interleaveRound rest
  | (f, a :: q) :: rest =>
      (a :: (interleaveRound rest).1, (f, q) :: (interleaveRound rest).2)

/-- Total number of queued elements plus number of groups; the termination
measure of the `while True:` loop of `interleave_family`. -/
def gsize (g : List (Nat × List AddressInfoTuple)) : Nat :=
  (g.map fun p => p.2.length + 1).sum

/-- The `while True:` loop of `interleave_family`, starting from the grouped
queues: emit a round, stop when no group survives. -/
def interleaveLoop (g : List (Nat × List AddressInfoTuple)) : List AddressInfoTuple :=
  if h : (interleaveRound g).2 = [] then (interleaveRound g).1
  else (interleaveRound g).1 ++ interleaveLoop (interleaveRound g).2
termination_by gsize g
decreasing_by
  have key : ∀ gl : List (Nat × List AddressInfoTuple),
      gsize (interleaveRound gl).2 + gl.length = gsize gl := by
    intro gl
    induction gl with
    | nil => simp [interleaveRound, gsize]
    | cons p rest ih =>
        obtain ⟨f, q⟩ := p
        cases q with
        | nil => simp [interleaveRound, gsize] at ih ⊢; omega
        | cons a q' => simp [interleaveRound, gsize] at ih ⊢; omega
  have hg : g ≠ [] := by
    intro he
    rw [he] at h
    simp [interleaveRound] at h
  have h1 := key g
  have h2 : 0 < g.length := List.length_pos.mpr hg
  omega

/-- `interleave_family` from the source: interleave the address families of
the given info while retaining order. -/
def interleave_family (infos : List AddressInfoTuple) : List AddressInfoTuple :=
  interleaveLoop (groupByFamily infos)

/-! ### Auxiliary notions for reasoning about the grouped queues -/

/-- The group keys (families) are pairwise distinct — true of any Python
dict, hence of `grouped`. -/
def keysNodup (g : List (Nat × List AddressInfoTuple)) : Prop :=
  (g.map Prod.fst).Nodup

/-- Every queued record carries the family of its queue's key — true of
`grouped` since records are grouped by `info[0]`. -/
def famConsistent (g : List (Nat × List AddressInfoTuple)) : Prop :=
  ∀ p ∈ g, ∀ x ∈ p.2, x.family = p.1

/-- The queue stored under family `f`, or `[]` when the family is absent. -/
def lookupD (f : Nat) : List (Nat × List AddressInfoTuple) → List AddressInfoTuple
  | [] => []
  | p :: rest => if p.1 = f then p.2 else lookupD f rest

/-- The records of family `f`, in order. -/
def famFilter (f : Nat) : List AddressInfoTuple → List AddressInfoTuple
  | [] => []
  | x :: xs => if x.family = f then x :: famFilter f xs else famFilter f xs

/-- Drop the groups whose queue is empty. -/
def dropEmpty : List (Nat × List AddressInfoTuple) → List (Nat × List AddressInfoTuple)
  | [] => []
  | p :: rest => if p.2 = [] then dropEmpty rest else p :: dropEmpty rest

/-! ## The connection racer: `connect_addresses`

The Python loop interacts with the outside world through
`time.time()`, `socket_factory`, `fd.connect`, `selector.select` and
`fd.getsockopt(SO_ERROR)`.  All of these are collected into an `Env` oracle:
the k-th admitted candidate's construction and connect outcomes are
`env.factory k` / `env.connect k`, the j-th `selector.select` call reports
`env.selectEvents j`, and the clock reads `env.start` at the top of the call
and `env.timeAt i` on loop iteration `i`.  Socket handles are `Nat`s
allocated in construction order. -/

/-- An error recorded in the `exceptions` list.  Construction failures are
appended without an attached note (the source adds no note on that path);
`connectError` and `harvestError` carry the `Address:` note the source
attaches via `add_note`. -/
inductive RaceErr where
  | constructionError (msg : String)
  | connectError (msg : String) (address : Addr)
  | harvestError (soError : Nat) (address : Addr)
deriving DecidableEq, Repr

/-- Outcome of the non-blocking `fd.connect(address)` call: immediate
success, `BlockingIOError` (connect in progress), or any other exception. -/
inductive ConnectBehavior where
  | success
  | wouldBlock
  | failure (msg : String)
deriving DecidableEq, Repr

/-- One event reported by `selector.select`: the socket, its event mask's
write bit, and the socket's pending `SO_ERROR` (0 for none). -/
structure SelectEvent where
  sock : Nat
  isWrite : Bool
  soError : Nat
deriving DecidableEq, Repr

/-- The oracle for every external primitive the racer calls. -/
structure Env where
  /-- `time.time()` at line `starting = time.time()`. -/
  start : ℚ
  /-- `time.time()` at the top of loop iteration `i`. -/
  timeAt : Nat → ℚ
  /-- `socket_factory` outcome for the k-th admitted candidate. -/
  factory : Nat → Except String Unit
  /-- `fd.connect` outcome for the k-th admitted candidate. -/
  connect : Nat → ConnectBehavior
  /-- events reported by the j-th `selector.select` call. -/
  selectEvents : Nat → List SelectEvent

/-- The mutable state of one `connect_addresses` call.  `remaining` is the
not-yet-consumed part of the candidate iterator; `pending` is the selector's
registration map (socket, address), in registration order; `exceptions` the
accumulated error list; `delay` the current (possibly clamped) stagger
delay.  `opened`, `closed`, `attempted`, `modes`, `polls` record the
observable history: every socket ever constructed, every socket closed, the
candidates dequeued, each socket's blocking mode, and the number of
`selector.select` calls made. -/
structure RaceState where
  remaining : List AddressInfoTuple
  pending : List (Nat × Addr)
  exceptions : List RaceErr
  delay : ℚ
  nextSock : Nat
  iter : Nat
  polls : Nat
  opened : List Nat
  closed : List Nat
  attempted : List AddressInfoTuple
  modes : List (Nat × Bool)
deriving DecidableEq, Repr

/-- Terminal result of the race.  `outOfFuel` stands for an execution still
inside the loop after the given number of iterations (the Python loop can
spin forever when `timeout == 0` and no socket ever reports ready). -/
inductive Outcome where
  | connected (sock : Nat)
  | failed (errors : List RaceErr)
  | timedOut
  | outOfFuel
deriving DecidableEq, Repr

/-- Latest blocking mode recorded for socket `s` (`true` = blocking). -/
def getMode : List (Nat × Bool) → Nat → Option Bool
  | [], _ => none
  | p :: rest, s => if p.1 = s then some p.2 else getMode rest s

/-- The address a socket was registered with (`key.data`). -/
def lookupPending (sock : Nat) : List (Nat × Addr) → Option Addr
  | [] => none
  | p :: rest => if p.1 = sock then some p.2 else lookupPending sock rest

/-- `selector.unregister(fd)`. -/
def unregister (sock : Nat) : List (Nat × Addr) → List (Nat × Addr)
  | [] => []
  | p :: rest => if p.1 = sock then unregister sock rest else p :: unregister sock rest

/-- State at `while True:` entry. -/
def initState (addresses : List AddressInfoTuple) (delay : ℚ) : RaceState :=
  { remaining := addresses
    pending := []
    exceptions := []
    delay := delay
    nextSock := 0
    iter := 0
    polls := 0
    opened := []
    closed := []
    attempted := []
    modes := [] }

/-- Result of processing one `selector.select` batch. -/
inductive HarvestRes where
  | success (sock : Nat) (st : RaceState)
  | done (st : RaceState)
deriving DecidableEq, Repr

/-- The `for key, event in selector.select(delay):` body.  Events without the
write bit are skipped (`continue`); events for sockets not currently
registered cannot occur with a real selector and are ignored.  A ready
socket is unregistered, then its `SO_ERROR` is inspected: a non-zero error
is recorded (note-tagged with the registered address) and the socket closed;
otherwise the socket is set back to blocking mode and returned. -/
def harvest (st : RaceState) : List SelectEvent → HarvestRes
  | [] => .done st
  | e :: rest =>
      if e.isWrite = false then harvest st rest
      else
        match lookupPending e.sock st.pending with
        | none => harvest st rest
        | some addr =>
            let st1 := { st with pending := unregister e.sock st.pending }
            if e.soError ≠ 0 then
              harvest { st1 with
                exceptions := st1.exceptions ++ [.harvestError e.soError addr]
                closed := st1.closed ++ [e.sock] } rest
            else
              .success e.sock { st1 with modes := (e.sock, true) :: st1.modes }

/-- `delay` after the `if timeout:` clamp:
`delay = min(delay, max(0, timeout - (now - starting)))`, performed only
when `timeout` is non-zero (Python truthiness of a float). -/
def clampDelay (timeout start now d : ℚ) : ℚ :=
  if timeout = 0 then d else min d (max 0 (timeout - (now - start)))

/-- The state as the poll is issued: the (possibly clamped) delay is stored
back into the loop's `delay` variable and the poll counter advances. -/
def pollState (env : Env) (timeout : ℚ) (st : RaceState) (now : ℚ) : RaceState :=
  { st with delay := clampDelay timeout env.start now st.delay, polls := st.polls + 1 }

/-- The tail of one loop iteration, from the
`if len(selector.get_map()) == 0: break` check on: break out with the
aggregate failure when nothing is pending; otherwise clamp the delay, poll,
harvest the reported events, and raise `TimeoutError` if the (clamped)
delay is zero. -/
def afterAdmit (env : Env) (timeout : ℚ) (st : RaceState) (now : ℚ) :
    RaceState ⊕ (Outcome × RaceState) :=
  if st.pending = [] then .inr (.failed st.exceptions, st)
  else
    let st1 := pollState env timeout st now
    match harvest st1 (env.selectEvents st.polls) with
    | .success w st2 => .inr (.connected w, st2)
    | .done st2 =>
        if st1.delay = 0 then .inr (.timedOut, st2)
        else .inl { st2 with iter := st2.iter + 1 }

/-- One iteration of the `while True:` loop.  `.inl` is the next iteration's
state (the loop continues, including via `continue`); `.inr` is a return or
raise.  If a candidate is available it is admitted: a construction failure
is recorded (untagged) and control falls through to the pending-check; a
synchronous connect success returns the socket (set back to blocking); a
would-block registers the socket for write readiness; any other connect
failure is recorded tagged, the socket closed, and the loop restarted
immediately (`continue`). -/
def raceStep (env : Env) (timeout : ℚ) (st : RaceState) :
    RaceState ⊕ (Outcome × RaceState) :=
  let now := env.timeAt st.iter
  match st.remaining with
  | [] => afterAdmit env timeout st now
  | info :: rest =>
      let k := st.attempted.length
      let st0 := { st with remaining := rest, attempted := st.attempted ++ [info] }
      match env.factory k with
      | .error e =>
          afterAdmit env timeout
            { st0 with exceptions := st0.exceptions ++ [.constructionError e] } now
      | .ok _ =>
          let s := st.nextSock
          let st1 := { st0 with
            nextSock := s + 1
            opened := st0.opened ++ [s]
            modes := (s, false) :: st0.modes }
          match env.connect k with
          | .success => .inr (.connected s, { st1 with modes := (s, true) :: st1.modes })
          | .wouldBlock =>
              afterAdmit env timeout
                { st1 with pending := st1.pending ++ [(s, info.sockaddr)] } now
          | .failure m =>
              .inl { st1 with
                exceptions := st1.exceptions ++ [.connectError m info.sockaddr]
                closed := st1.closed ++ [s]
                iter := st.iter + 1 }

/-- Run the loop for at most `fuel` iterations. -/
def raceRun (env : Env) (timeout : ℚ) : Nat → RaceState → Outcome × RaceState
  | 0, st => (.outOfFuel, st)
  | fuel + 1, st =>
      match raceStep env timeout st with
      | .inl st' => raceRun env timeout fuel st'
      | .inr r => r

/-- The `finally:` block: close every socket still registered in the
selector and release the selector. -/
def cleanup (st : RaceState) : RaceState :=
  { st with closed := st.closed ++ st.pending.map Prod.fst, pending := [] }

/-- `connect_addresses` from the source: run the race loop on the candidate
sequence, then perform the `finally:` cleanup.  The pair is the terminal
outcome together with the final observable state. -/
def connect_addresses (addresses : List AddressInfoTuple) (delay timeout : ℚ)
    (env : Env) (fuel : Nat) : Outcome × RaceState :=
  ((raceRun env timeout fuel (initState addresses delay)).1,
    cleanup (raceRun env timeout fuel (initState addresses delay)).2)

/-- `connect_host` from the source, after the out-of-scope `getaddrinfo`
resolution produced `resolved`: race the family-interleaved candidates.
(The `add_note`/re-raise wrapper changes no socket behaviour.) -/
def connect_host (resolved : List AddressInfoTuple) (delay timeout : ℚ)
    (env : Env) (fuel : Nat) : Outcome × RaceState :=
  connect_addresses (interleave_family resolved) delay timeout env fuel

/-! ### Selector registration map lemmas -/

/-- The socket handles currently registered in the selector. -/
def pendSocks (st : RaceState) : List Nat := st.pending.map Prod.fst

/-! ### The resource-safety invariant (claim about socket ownership) -/

/-- Invariant of the race loop: every constructed socket is accounted for —
it is bounded by the allocation counter, and is either already closed or
still registered in the selector (never both); the registration map has no
duplicate handles. -/
structure Inv (st : RaceState) : Prop where
  opened_lt : ∀ s ∈ st.opened, s < st.nextSock
  pend_opened : ∀ s ∈ pendSocks st, s ∈ st.opened
  closed_opened : ∀ s ∈ st.closed, s ∈ st.opened
  opened_covered : ∀ s ∈ st.opened, s ∈ st.closed ∨ s ∈ pendSocks st
  pend_nodup : (pendSocks st).Nodup
  pend_not_closed : ∀ s ∈ pendSocks st, s ∉ st.closed

/-- What holds of the state handed back together with a returned socket:
the winner was opened, is not closed, is no longer registered, and every
other opened socket is closed or still registered (so the `finally:` block
closes it). -/
structure ConnPost (w : Nat) (st : RaceState) : Prop where
  won_opened : w ∈ st.opened
  won_not_closed : w ∉ st.closed
  won_not_pending : w ∉ pendSocks st
  rest_covered : ∀ s ∈ st.opened, s = w ∨ s ∈ st.closed ∨ s ∈ pendSocks st

/-- Post-state obligation for each terminal outcome. -/
def PostOK : Outcome → RaceState → Prop
  | .connected w, st => ConnPost w st
  | _, st => ∀ s ∈ st.opened, s ∈ st.closed ∨ s ∈ pendSocks st

/-! ### Candidate-stream consumption (ordering lemma) -/

/-- The state carried by a step result, whether the loop continues or not. -/
def stepState : RaceState ⊕ (Outcome × RaceState) → RaceState
  | .inl st => st
  | .inr (_, st) => st

/-! ### Per-branch unfolding equations of one loop iteration -/

/-! ## Concrete example data

Families use the Linux constants: `AF_INET = 2`, `AF_INET6 = 10`,
`SOCK_STREAM = 1`, `IPPROTO_TCP = 6`. -/

def infoA1 : AddressInfoTuple := ⟨2, 1, 6, "", .inet "192.0.2.1" 80⟩

def infoA2 : AddressInfoTuple := ⟨2, 1, 6, "", .inet "192.0.2.2" 80⟩

def infoA3 : AddressInfoTuple := ⟨2, 1, 6, "", .inet "192.0.2.3" 80⟩

def infoB1 : AddressInfoTuple := ⟨10, 1, 6, "", .inet6 "2001:db8::1" 80 0 0⟩

def infoB2 : AddressInfoTuple := ⟨10, 1, 6, "", .inet6 "2001:db8::2" 80 0 0⟩

/-- Construction of the first candidate's socket fails (say, the host lacks
IPv6 support); later candidates would construct and connect fine. -/
def envFirstFactoryFails : Env :=
  { start := 0
    timeAt := fun _ => 0
    factory := fun k => if k = 0 then .error "address family not supported" else .ok ()
    connect := fun _ => .success
    selectEvents := fun _ => [] }

/-- Same shape with a different message, for the second failing run. -/
def envIPv6Unsupported : Env :=
  { start := 0
    timeAt := fun _ => 0
    factory := fun k => if k = 0 then .error "AF_INET6 not supported on this host" else .ok ()
    connect := fun _ => .success
    selectEvents := fun _ => [] }

/-- Every candidate constructs fine and is refused immediately at connect. -/
def envAllRefused : Env :=
  { start := 0
    timeAt := fun _ => 0
    factory := fun _ => .ok ()
    connect := fun _ => .failure "ECONNREFUSED"
    selectEvents := fun _ => [] }

/-- Every connect would block and the selector never reports anything. -/
def envNeverReady : Env :=
  { start := 0
    timeAt := fun i => (i : ℚ)
    factory := fun _ => .ok ()
    connect := fun _ => .wouldBlock
    selectEvents := fun _ => [] }

/-- A mid-race state with one attempt pending, used to witness step-level
theorems: socket 0 is registered, delay is 1, nothing recorded yet. -/
def stOnePending : RaceState :=
  { remaining := []
    pending := [(0, .inet "192.0.2.1" 80)]
    exceptions := []
    delay := 1
    nextSock := 1
    iter := 1
    polls := 0
    opened := [0]
    closed := []
    attempted := [infoA1]
    modes := [(0, false)] }

/-- A mid-race state whose next candidate is `infoA2`, used to witness the
admit-path theorems. -/
def stNextCandidate : RaceState :=
  { remaining := [infoA2]
    pending := []
    exceptions := []
    delay := 1
    nextSock := 0
    iter := 0
    polls := 0
    opened := []
    closed := []
    attempted := []
    modes := [] }

/-! ## Claim theorems -/

/-- Every candidate constructs and connects synchronously. -/
def envAllConnect : Env :=
  { start := 0
    timeAt := fun _ => 0
    factory := fun _ => .ok ()
    connect := fun _ => .success
    selectEvents := fun _ => [] }

/-- Connects would block, and the selector immediately reports socket 0
write-ready with no pending error. -/
def envReadyNow : Env :=
  { start := 0
    timeAt := fun _ => 0
    factory := fun _ => .ok ()
    connect := fun _ => .wouldBlock
    selectEvents := fun _ => [⟨0, true, 0⟩] }

/-- `stOnePending` at the moment its poll is issued. -/
def stPolled : RaceState := pollState envReadyNow 1 stOnePending 5

/-- `stPolled` after harvesting socket 0 as an error-free write-ready
socket: unregistered and set back to blocking. -/
def stHarvested : RaceState :=
  { stPolled with pending := [], modes := (0, true) :: stPolled.modes }

theorem gsize_interleaveRound (g : List (Nat × List AddressInfoTuple)) :
    gsize (interleaveRound g).2 + g.length = gsize g := by
  induction g with
  | nil => simp [interleaveRound, gsize]
  | cons p rest ih =>
      obtain ⟨f, q⟩ := p
      cases q with
      | nil => simp [interleaveRound, gsize] at ih ⊢; omega
      | cons a q' => simp [interleaveRound, gsize] at ih ⊢; omega

theorem lookupD_eq_nil_of_not_mem {f : Nat} {g : List (Nat × List AddressInfoTuple)}
    (h : f ∉ g.map Prod.fst) : lookupD f g = [] := by
  induction g with
  | nil => rfl
  | cons p rest ih =>
      simp only [List.map_cons, List.mem_cons, not_or] at h
      rw [lookupD, if_neg (Ne.symm h.1), ih h.2]

theorem lookupD_of_mem {g : List (Nat × List AddressInfoTuple)}
    (hnd : keysNodup g) {p : Nat × List AddressInfoTuple} (hp : p ∈ g) :
    lookupD p.1 g = p.2 := by
  induction g with
  | nil => cases hp
  | cons q rest ih =>
      simp only [keysNodup, List.map_cons, List.nodup_cons] at hnd
      rcases List.mem_cons.mp hp with h | h
      · subst h; simp [lookupD]
      · have hne : q.1 ≠ p.1 := by
          intro he
          exact hnd.1 (he ▸ List.mem_map.mpr ⟨p, h, rfl⟩)
        simp only [lookupD, if_neg hne]
        exact ih hnd.2 h

theorem lookupD_all_empty {g : List (Nat × List AddressInfoTuple)}
    (h : ∀ p ∈ g, p.2 = []) (f : Nat) : lookupD f g = [] := by
  induction g with
  | nil => rfl
  | cons p rest ih =>
      by_cases he : p.1 = f
      · simp only [lookupD, if_pos he]
        exact h p (List.mem_cons_self p rest)
      · simp only [lookupD, if_neg he]
        exact ih fun q hq => h q (List.mem_cons_of_mem p hq)

/-! ### Properties of a single interleaving round -/

theorem mem_keys_interleaveRound {g : List (Nat × List AddressInfoTuple)} {f : Nat}
    (h : f ∈ (interleaveRound g).2.map Prod.fst) : f ∈ g.map Prod.fst := by
  induction g with
  | nil => simpa [interleaveRound] using h
  | cons p rest ih =>
      obtain ⟨f0, q⟩ := p
      cases q with
      | nil =>
          simp only [interleaveRound] at h
          exact List.mem_cons_of_mem _ (ih h)
      | cons a q' =>
          simp only [interleaveRound, List.map_cons, List.mem_cons] at h ⊢
          exact h.imp id ih

theorem keysNodup_interleaveRound {g : List (Nat × List AddressInfoTuple)}
    (h : keysNodup g) : keysNodup (interleaveRound g).2 := by
  induction g with
  | nil => simpa [interleaveRound, keysNodup] using h
  | cons p rest ih =>
      obtain ⟨f0, q⟩ := p
      simp only [keysNodup, List.map_cons, List.nodup_cons] at h
      cases q with
      | nil => exact ih h.2
      | cons a q' =>
          simp only [interleaveRound, keysNodup, List.map_cons, List.nodup_cons]
          exact ⟨fun hm => h.1 (mem_keys_interleaveRound hm), ih h.2⟩

theorem famConsistent_interleaveRound {g : List (Nat × List AddressInfoTuple)}
    (h : famConsistent g) : famConsistent (interleaveRound g).2 := by
  induction g with
  | nil => intro p hp; simp [interleaveRound] at hp
  | cons p rest ih =>
      obtain ⟨f0, q⟩ := p
      have hrest : famConsistent rest := fun r hr => h r (List.mem_cons_of_mem _ hr)
      cases q with
      | nil => exact ih hrest
      | cons a q' =>
          intro r hr
          simp only [interleaveRound, List.mem_cons] at hr
          rcases hr with hr | hr
          · subst hr
            intro x hx
            exact h (f0, a :: q') (List.mem_cons_self _ _) x (List.mem_cons_of_mem a hx)
          · exact ih hrest r hr

theorem lookupD_interleaveRound {g : List (Nat × List AddressInfoTuple)}
    (hnd : keysNodup g) (f : Nat) :
    lookupD f (interleaveRound g).2 = (lookupD f g).tail := by
  induction g with
  | nil => simp [interleaveRound, lookupD]
  | cons p rest ih =>
      obtain ⟨f0, q⟩ := p
      simp only [keysNodup, List.map_cons, List.nodup_cons] at hnd
      cases q with
      | nil =>
          simp only [interleaveRound, lookupD]
          by_cases he : f0 = f
          · subst he
            rw [if_pos rfl, List.tail_nil,
              lookupD_eq_nil_of_not_mem fun hm => hnd.1 (mem_keys_interleaveRound hm)]
          · rw [if_neg he, ih hnd.2]
      | cons a q' =>
          simp only [interleaveRound, lookupD]
          by_cases he : f0 = f
          · simp [if_pos he]
          · rw [if_neg he, if_neg he, ih hnd.2]

theorem famFilter_interleaveRound_out {g : List (Nat × List AddressInfoTuple)}
    (hnd : keysNodup g) (hfc : famConsistent g) (f : Nat) :
    famFilter f (interleaveRound g).1 = (lookupD f g).take 1 := by
  induction g with
  | nil => simp [interleaveRound, famFilter, lookupD]
  | cons p rest ih =>
      obtain ⟨f0, q⟩ := p
      simp only [keysNodup, List.map_cons, List.nodup_cons] at hnd
      have hrest : famConsistent rest := fun r hr => hfc r (List.mem_cons_of_mem _ hr)
      cases q with
      | nil =>
          simp only [interleaveRound, lookupD]
          by_cases he : f0 = f
          · subst he
            rw [if_pos rfl, ih hnd.2 hrest,
              lookupD_eq_nil_of_not_mem (fun hm => hnd.1 hm)]
          · rw [if_neg he, ih hnd.2 hrest]
      | cons a q' =>
          have ha : a.family = f0 :=
            hfc (f0, a :: q') (List.mem_cons_self _ _) a (List.mem_cons_self _ _)
          simp only [interleaveRound, famFilter, lookupD, ha]
          by_cases he : f0 = f
          · subst he
            rw [if_pos rfl, if_pos rfl, ih hnd.2 hrest,
              lookupD_eq_nil_of_not_mem (fun hm => hnd.1 hm)]
            simp
          · rw [if_neg he, if_neg he, ih hnd.2 hrest]

theorem mem_family_interleaveRound_out {g : List (Nat × List AddressInfoTuple)}
    (hfc : famConsistent g) {x : AddressInfoTuple} (hx : x ∈ (interleaveRound g).1) :
    x.family ∈ g.map Prod.fst := by
  induction g with
  | nil => simp [interleaveRound] at hx
  | cons p rest ih =>
      obtain ⟨f0, q⟩ := p
      have hrest : famConsistent rest := fun r hr => hfc r (List.mem_cons_of_mem _ hr)
      cases q with
      | nil =>
          simp only [interleaveRound] at hx
          exact List.mem_cons_of_mem _ (ih hrest hx)
      | cons a q' =>
          simp only [interleaveRound, List.mem_cons] at hx
          rcases hx with hx | hx
          · have ha : x.family = f0 := by
              rw [hx]
              exact hfc (f0, a :: q') (List.mem_cons_self _ _) a (List.mem_cons_self _ _)
            exact List.mem_cons.mpr (Or.inl ha)
          · exact List.mem_cons_of_mem _ (ih hrest hx)

theorem all_empty_of_interleaveRound_nil {g : List (Nat × List AddressInfoTuple)}
    (h : (interleaveRound g).2 = []) : ∀ p ∈ g, p.2 = [] := by
  induction g with
  | nil => intro p hp; cases hp
  | cons p rest ih =>
      obtain ⟨f0, q⟩ := p
      cases q with
      | nil =>
          simp only [interleaveRound] at h
          intro r hr
          rcases List.mem_cons.mp hr with hr | hr
          · subst hr; rfl
          · exact ih h r hr
      | cons a q' => simp [interleaveRound] at h

theorem out_nil_of_interleaveRound_nil {g : List (Nat × List AddressInfoTuple)}
    (h : (interleaveRound g).2 = []) : (interleaveRound g).1 = [] := by
  induction g with
  | nil => rfl
  | cons p rest ih =>
      obtain ⟨f0, q⟩ := p
      cases q with
      | nil => exact ih (by simpa [interleaveRound] using h)
      | cons a q' => simp [interleaveRound] at h

theorem keys_interleaveRound_eq_dropEmpty (g : List (Nat × List AddressInfoTuple)) :
    (interleaveRound g).2.map Prod.fst = (dropEmpty g).map Prod.fst := by
  induction g with
  | nil => rfl
  | cons p rest ih =>
      obtain ⟨f0, q⟩ := p
      cases q with
      | nil => simpa [interleaveRound, dropEmpty] using ih
      | cons a q' => simpa [interleaveRound, dropEmpty] using ih

/-- Unfolding equation of the interleave loop. -/
theorem interleaveLoop_eq (g : List (Nat × List AddressInfoTuple)) :
    interleaveLoop g =
      if (interleaveRound g).2 = [] then (interleaveRound g).1
      else (interleaveRound g).1 ++ interleaveLoop (interleaveRound g).2 := by
  rw [interleaveLoop]
  simp only [dite_eq_ite]

theorem gsize_interleaveRound_lt {g : List (Nat × List AddressInfoTuple)}
    (h : g ≠ []) : gsize (interleaveRound g).2 < gsize g := by
  have h1 := gsize_interleaveRound g
  have h2 : 0 < g.length := List.length_pos.mpr h
  omega

/-! ### Properties of the full interleave loop -/

theorem mem_family_interleaveLoop_aux (n : Nat) :
    ∀ g : List (Nat × List AddressInfoTuple), gsize g ≤ n → famConsistent g →
      ∀ x ∈ interleaveLoop g, x.family ∈ g.map Prod.fst := by
  induction n with
  | zero =>
      intro g hle hfc x hx
      cases g with
      | nil => rw [interleaveLoop_eq] at hx; simp [interleaveRound] at hx
      | cons p rest => simp [gsize] at hle
  | succ n ih =>
      intro g hle hfc x hx
      rw [interleaveLoop_eq] at hx
      by_cases hnil : (interleaveRound g).2 = []
      · rw [if_pos hnil] at hx
        exact mem_family_interleaveRound_out hfc hx
      · rw [if_neg hnil] at hx
        rcases List.mem_append.mp hx with hx | hx
        · exact mem_family_interleaveRound_out hfc hx
        · have hg : g ≠ [] := by
            intro he; rw [he] at hnil; exact hnil rfl
          have hlt := gsize_interleaveRound_lt hg
          have hmem := ih (interleaveRound g).2 (by omega)
            (famConsistent_interleaveRound hfc) x hx
          exact mem_keys_interleaveRound hmem

theorem mem_family_interleaveLoop {g : List (Nat × List AddressInfoTuple)}
    (hfc : famConsistent g) {x : AddressInfoTuple} (hx : x ∈ interleaveLoop g) :
    x.family ∈ g.map Prod.fst :=
  mem_family_interleaveLoop_aux (gsize g) g le_rfl hfc x hx

theorem take_one_append_tail (l : List AddressInfoTuple) : l.take 1 ++ l.tail = l := by
  cases l <;> simp

theorem famFilter_append (f : Nat) (l1 l2 : List AddressInfoTuple) :
    famFilter f (l1 ++ l2) = famFilter f l1 ++ famFilter f l2 := by
  induction l1 with
  | nil => rfl
  | cons x xs ih =>
      have hc : (x :: xs) ++ l2 = x :: (xs ++ l2) := rfl
      rw [hc, famFilter, famFilter, ih]
      by_cases hx : x.family = f
      · rw [if_pos hx, if_pos hx, List.cons_append]
      · rw [if_neg hx, if_neg hx]

/-- Core characterisation: the records of family `f` emitted by the loop are
exactly the queue stored under `f`, in order. -/
theorem famFilter_interleaveLoop_aux (n : Nat) :
    ∀ g : List (Nat × List AddressInfoTuple), gsize g ≤ n → keysNodup g →
      famConsistent g → ∀ f, famFilter f (interleaveLoop g) = lookupD f g := by
  induction n with
  | zero =>
      intro g hle hnd hfc f
      cases g with
      | nil => rw [interleaveLoop_eq]; simp [interleaveRound, famFilter, lookupD]
      | cons p rest => simp [gsize] at hle
  | succ n ih =>
      intro g hle hnd hfc f
      rw [interleaveLoop_eq]
      by_cases hnil : (interleaveRound g).2 = []
      · rw [if_pos hnil, out_nil_of_interleaveRound_nil hnil,
          lookupD_all_empty (all_empty_of_interleaveRound_nil hnil) f]
        rfl
      · have hg : g ≠ [] := by
          intro he; rw [he] at hnil; exact hnil rfl
        have hlt := gsize_interleaveRound_lt hg
        rw [if_neg hnil, famFilter_append,
          famFilter_interleaveRound_out hnd hfc f,
          ih (interleaveRound g).2 (by omega) (keysNodup_interleaveRound hnd)
            (famConsistent_interleaveRound hfc) f,
          lookupD_interleaveRound hnd f, take_one_append_tail]

theorem famFilter_interleaveLoop {g : List (Nat × List AddressInfoTuple)}
    (hnd : keysNodup g) (hfc : famConsistent g) (f : Nat) :
    famFilter f (interleaveLoop g) = lookupD f g :=
  famFilter_interleaveLoop_aux (gsize g) g le_rfl hnd hfc f

/-- The loop on a single queue returns the queue unchanged. -/
theorem interleaveLoop_single (f : Nat) (l : List AddressInfoTuple) :
    interleaveLoop [(f, l)] = l := by
  induction l with
  | nil => rw [interleaveLoop_eq]; simp [interleaveRound]
  | cons a q ih =>
      rw [interleaveLoop_eq]
      simp only [interleaveRound]
      rw [if_neg (by simp)]
      simpa [interleaveRound] using ih

/-! ### Properties of the grouping fold -/

theorem keys_addToGroup_mem {g : List (Nat × List AddressInfoTuple)}
    {x : AddressInfoTuple} (h : x.family ∈ g.map Prod.fst) :
    (addToGroup g x).map Prod.fst = g.map Prod.fst := by
  induction g with
  | nil => simp at h
  | cons p rest ih =>
      by_cases hp : p.1 = x.family
      · simp [addToGroup, if_pos hp]
      · simp only [List.map_cons, List.mem_cons] at h
        rcases h with h | h
        · exact absurd h.symm hp
        · simp [addToGroup, if_neg hp, ih h]

theorem keys_addToGroup_not_mem {g : List (Nat × List AddressInfoTuple)}
    {x : AddressInfoTuple} (h : x.family ∉ g.map Prod.fst) :
    (addToGroup g x).map Prod.fst = g.map Prod.fst ++ [x.family] := by
  induction g with
  | nil => simp [addToGroup]
  | cons p rest ih =>
      simp only [List.map_cons, List.mem_cons, not_or] at h
      simp [addToGroup, if_neg (Ne.symm h.1), ih h.2]

theorem keysNodup_addToGroup {g : List (Nat × List AddressInfoTuple)}
    {x : AddressInfoTuple} (h : keysNodup g) : keysNodup (addToGroup g x) := by
  by_cases hm : x.family ∈ g.map Prod.fst
  · unfold keysNodup
    rw [keys_addToGroup_mem hm]
    exact h
  · unfold keysNodup
    rw [keys_addToGroup_not_mem hm]
    refine List.Nodup.append h (List.nodup_singleton _) ?_
    intro a ha hb
    simp only [List.mem_singleton] at hb
    subst hb
    exact hm ha

theorem keysNodup_groupByFamily (l : List AddressInfoTuple) :
    keysNodup (groupByFamily l) := by
  have haux : ∀ (xs : List AddressInfoTuple) (g : List (Nat × List AddressInfoTuple)),
      keysNodup g → keysNodup (xs.foldl addToGroup g) := by
    intro xs
    induction xs with
    | nil => intro g hg; exact hg
    | cons x xs ih => intro g hg; exact ih _ (keysNodup_addToGroup hg)
  exact haux l [] (by simp [keysNodup])

theorem famConsistent_addToGroup {g : List (Nat × List AddressInfoTuple)}
    {x : AddressInfoTuple} (h : famConsistent g) : famConsistent (addToGroup g x) := by
  induction g with
  | nil =>
      intro p hp
      simp only [addToGroup, List.mem_singleton] at hp
      subst hp
      intro y hy
      simp only [List.mem_singleton] at hy
      subst hy
      rfl
  | cons p rest ih =>
      have hrest : famConsistent rest := fun r hr => h r (List.mem_cons_of_mem _ hr)
      by_cases hp : p.1 = x.family
      · intro r hr
        simp only [addToGroup, if_pos hp, List.mem_cons] at hr
        rcases hr with hr | hr
        · subst hr
          intro y hy
          rcases List.mem_append.mp hy with hy | hy
          · exact h p (List.mem_cons_self _ _) y hy
          · simp only [List.mem_singleton] at hy
            subst hy
            exact hp.symm
        · exact h r (List.mem_cons_of_mem _ hr)
      · intro r hr
        simp only [addToGroup, if_neg hp, List.mem_cons] at hr
        rcases hr with hr | hr
        · subst hr
          exact h r (List.mem_cons_self _ _)
        · exact ih hrest r hr

theorem famConsistent_groupByFamily (l : List AddressInfoTuple) :
    famConsistent (groupByFamily l) := by
  have haux : ∀ (xs : List AddressInfoTuple) (g : List (Nat × List AddressInfoTuple)),
      famConsistent g → famConsistent (xs.foldl addToGroup g) := by
    intro xs
    induction xs with
    | nil => intro g hg; exact hg
    | cons x xs ih => intro g hg; exact ih _ (famConsistent_addToGroup hg)
  exact haux l [] (by intro p hp; cases hp)

theorem nonempty_addToGroup {g : List (Nat × List AddressInfoTuple)}
    {x : AddressInfoTuple} (h : ∀ p ∈ g, p.2 ≠ []) :
    ∀ p ∈ addToGroup g x, p.2 ≠ [] := by
  induction g with
  | nil =>
      intro p hp
      simp only [addToGroup, List.mem_singleton] at hp
      subst hp
      simp
  | cons p rest ih =>
      have hrest : ∀ r ∈ rest, r.2 ≠ [] := fun r hr => h r (List.mem_cons_of_mem _ hr)
      by_cases hp : p.1 = x.family
      · intro r hr
        simp only [addToGroup, if_pos hp, List.mem_cons] at hr
        rcases hr with hr | hr
        · subst hr; simp
        · exact hrest r hr
      · intro r hr
        simp only [addToGroup, if_neg hp, List.mem_cons] at hr
        rcases hr with hr | hr
        · subst hr; exact h r (List.mem_cons_self _ _)
        · exact ih hrest r hr

theorem nonempty_groupByFamily (l : List AddressInfoTuple) :
    ∀ p ∈ groupByFamily l, p.2 ≠ [] := by
  have haux : ∀ (xs : List AddressInfoTuple) (g : List (Nat × List AddressInfoTuple)),
      (∀ p ∈ g, p.2 ≠ []) → ∀ p ∈ xs.foldl addToGroup g, p.2 ≠ [] := by
    intro xs
    induction xs with
    | nil => intro g hg; exact hg
    | cons x xs ih => intro g hg; exact ih _ (nonempty_addToGroup hg)
  exact haux l [] (by intro p hp; cases hp)

theorem lookupD_addToGroup (g : List (Nat × List AddressInfoTuple))
    (x : AddressInfoTuple) (f : Nat) :
    lookupD f (addToGroup g x) =
      if x.family = f then lookupD f g ++ [x] else lookupD f g := by
  induction g with
  | nil =>
      simp only [addToGroup, lookupD]
      by_cases hx : x.family = f
      · simp [hx]
      · simp [hx]
  | cons p rest ih =>
      by_cases hp : p.1 = x.family
      · simp only [addToGroup, if_pos hp, lookupD]
        by_cases hf : p.1 = f
        · rw [if_pos hf, if_pos hf, if_pos (hp ▸ hf)]
        · rw [if_neg hf, if_neg hf, if_neg (fun hxf => hf (hp.trans hxf))]
      · simp only [addToGroup, if_neg hp, lookupD]
        by_cases hf : p.1 = f
        · rw [if_pos hf, if_pos hf, if_neg (fun hxf => hp (hf.trans hxf.symm))]
        · rw [if_neg hf, if_neg hf, ih]

theorem lookupD_foldl (xs : List AddressInfoTuple) :
    ∀ (g : List (Nat × List AddressInfoTuple)) (f : Nat),
      lookupD f (xs.foldl addToGroup g) = lookupD f g ++ famFilter f xs := by
  induction xs with
  | nil => intro g f; simp [famFilter]
  | cons x xs ih =>
      intro g f
      show lookupD f (xs.foldl addToGroup (addToGroup g x)) = _
      rw [ih, lookupD_addToGroup, famFilter]
      by_cases hx : x.family = f
      · rw [if_pos hx, if_pos hx, List.append_assoc]
        rfl
      · rw [if_neg hx, if_neg hx]

theorem lookupD_groupByFamily (xs : List AddressInfoTuple) (f : Nat) :
    lookupD f (groupByFamily xs) = famFilter f xs := by
  have h := lookupD_foldl xs [] f
  simpa [lookupD] using h

theorem addToGroup_append_left {acc : List (Nat × List AddressInfoTuple)}
    {x : AddressInfoTuple} (h : x.family ∉ acc.map Prod.fst)
    (g : List (Nat × List AddressInfoTuple)) :
    addToGroup (acc ++ g) x = acc ++ addToGroup g x := by
  induction acc with
  | nil => rfl
  | cons p rest ih =>
      simp only [List.map_cons, List.mem_cons, not_or] at h
      have hc : (p :: rest) ++ g = p :: (rest ++ g) := rfl
      rw [hc]
      simp only [addToGroup, if_neg (Ne.symm h.1)]
      rw [ih h.2]
      rfl

theorem foldl_addToGroup_append_left (xs : List AddressInfoTuple) :
    ∀ (acc g : List (Nat × List AddressInfoTuple)),
      (∀ x ∈ xs, x.family ∉ acc.map Prod.fst) →
      xs.foldl addToGroup (acc ++ g) = acc ++ xs.foldl addToGroup g := by
  induction xs with
  | nil => intro acc g _; rfl
  | cons x xs ih =>
      intro acc g h
      show xs.foldl addToGroup (addToGroup (acc ++ g) x) = _
      rw [addToGroup_append_left (h x (List.mem_cons_self _ _)) g,
        ih acc _ (fun y hy => h y (List.mem_cons_of_mem _ hy))]
      rfl

theorem addToGroup_map_famFilter {acc : List (Nat × List AddressInfoTuple)}
    {x : AddressInfoTuple} (hnd : keysNodup acc)
    (hx : x.family ∈ acc.map Prod.fst) (xs : List AddressInfoTuple) :
    (addToGroup acc x).map (fun p => (p.1, p.2 ++ famFilter p.1 xs)) =
      acc.map (fun p => (p.1, p.2 ++ famFilter p.1 (x :: xs))) := by
  induction acc with
  | nil => simp at hx
  | cons p rest ih =>
      simp only [keysNodup, List.map_cons, List.nodup_cons] at hnd
      by_cases hp : p.1 = x.family
      · simp only [addToGroup, if_pos hp, List.map_cons]
        have hhead : p.2 ++ [x] ++ famFilter p.1 xs = p.2 ++ famFilter p.1 (x :: xs) := by
          rw [famFilter, if_pos hp.symm, List.append_assoc]
          rfl
        rw [hhead]
        have htail : ∀ r ∈ rest,
            (fun q : Nat × List AddressInfoTuple => (q.1, q.2 ++ famFilter q.1 xs)) r =
            (fun q : Nat × List AddressInfoTuple => (q.1, q.2 ++ famFilter q.1 (x :: xs))) r := by
          intro r hr
          have hrx : x.family ≠ r.1 := by
            intro he
            exact hnd.1 (hp.trans he ▸ List.mem_map.mpr ⟨r, hr, rfl⟩)
          simp only []
          rw [famFilter, if_neg hrx]
        rw [List.map_congr_left htail]
      · simp only [addToGroup, if_neg hp, List.map_cons]
        have hhead : p.2 ++ famFilter p.1 xs = p.2 ++ famFilter p.1 (x :: xs) := by
          rw [famFilter, if_neg (fun he => hp he.symm)]
        rw [hhead]
        have hx' : x.family ∈ rest.map Prod.fst := by
          rcases List.mem_cons.mp hx with h | h
          · exact absurd h.symm hp
          · exact h
        rw [ih hnd.2 hx']

theorem foldl_addToGroup_eq_map (xs : List AddressInfoTuple) :
    ∀ acc : List (Nat × List AddressInfoTuple), keysNodup acc →
      (∀ x ∈ xs, x.family ∈ acc.map Prod.fst) →
      xs.foldl addToGroup acc = acc.map (fun p => (p.1, p.2 ++ famFilter p.1 xs)) := by
  induction xs with
  | nil =>
      intro acc _ _
      simp [famFilter]
  | cons x xs ih =>
      intro acc hnd hsub
      have hx := hsub x (List.mem_cons_self _ _)
      show xs.foldl addToGroup (addToGroup acc x) = _
      rw [ih (addToGroup acc x) (keysNodup_addToGroup hnd)
          (by rw [keys_addToGroup_mem hx]; exact fun y hy => hsub y (List.mem_cons_of_mem _ hy)),
        addToGroup_map_famFilter hnd hx xs]

/-! ### `dropEmpty` housekeeping -/

theorem mem_of_mem_dropEmpty {g : List (Nat × List AddressInfoTuple)}
    {p : Nat × List AddressInfoTuple} (h : p ∈ dropEmpty g) : p ∈ g ∧ p.2 ≠ [] := by
  induction g with
  | nil => cases h
  | cons q rest ih =>
      by_cases hq : q.2 = []
      · simp only [dropEmpty, if_pos hq] at h
        exact ⟨List.mem_cons_of_mem _ (ih h).1, (ih h).2⟩
      · simp only [dropEmpty, if_neg hq, List.mem_cons] at h
        rcases h with h | h
        · subst h; exact ⟨List.mem_cons_self _ _, hq⟩
        · exact ⟨List.mem_cons_of_mem _ (ih h).1, (ih h).2⟩

theorem keysNodup_dropEmpty {g : List (Nat × List AddressInfoTuple)}
    (h : keysNodup g) : keysNodup (dropEmpty g) := by
  induction g with
  | nil => exact h
  | cons q rest ih =>
      simp only [keysNodup, List.map_cons, List.nodup_cons] at h
      by_cases hq : q.2 = []
      · simp only [dropEmpty, if_pos hq]
        exact ih h.2
      · simp only [dropEmpty, if_neg hq, keysNodup, List.map_cons, List.nodup_cons]
        refine ⟨fun hm => ?_, ih h.2⟩
        rcases List.mem_map.mp hm with ⟨r, hr, hfst⟩
        exact h.1 (List.mem_map.mpr ⟨r, (mem_of_mem_dropEmpty hr).1, hfst⟩)

theorem dropEmpty_all_empty {g : List (Nat × List AddressInfoTuple)}
    (h : ∀ p ∈ g, p.2 = []) : dropEmpty g = [] := by
  induction g with
  | nil => rfl
  | cons q rest ih =>
      simp only [dropEmpty, if_pos (h q (List.mem_cons_self _ _))]
      exact ih fun p hp => h p (List.mem_cons_of_mem _ hp)

theorem dropEmpty_eq_self {g : List (Nat × List AddressInfoTuple)}
    (h : ∀ p ∈ g, p.2 ≠ []) : dropEmpty g = g := by
  induction g with
  | nil => rfl
  | cons q rest ih =>
      simp only [dropEmpty, if_neg (h q (List.mem_cons_self _ _))]
      rw [ih fun p hp => h p (List.mem_cons_of_mem _ hp)]

/-- Grouping one emitted round recovers the non-empty groups, each holding
just its head. -/
theorem groupByFamily_interleaveRound_out {g : List (Nat × List AddressInfoTuple)}
    (hnd : keysNodup g) (hfc : famConsistent g) :
    groupByFamily (interleaveRound g).1 =
      (dropEmpty g).map (fun p => (p.1, p.2.take 1)) := by
  induction g with
  | nil => rfl
  | cons p rest ih =>
      obtain ⟨f0, q⟩ := p
      simp only [keysNodup, List.map_cons, List.nodup_cons] at hnd
      have hrest : famConsistent rest := fun r hr => hfc r (List.mem_cons_of_mem _ hr)
      cases q with
      | nil =>
          simp only [interleaveRound, dropEmpty, if_pos rfl]
          exact ih hnd.2 hrest
      | cons a q' =>
          have ha : a.family = f0 :=
            hfc (f0, a :: q') (List.mem_cons_self _ _) a (List.mem_cons_self _ _)
          simp only [interleaveRound, dropEmpty, if_neg (by simp : ¬(a :: q' = [])),
            List.map_cons]
          show (a :: (interleaveRound rest).1).foldl addToGroup [] = _
          have hstep : (a :: (interleaveRound rest).1).foldl addToGroup [] =
              (interleaveRound rest).1.foldl addToGroup [(a.family, [a])] := rfl
          rw [hstep, ha]
          have hpre : (interleaveRound rest).1.foldl addToGroup ([(f0, [a])] ++ []) =
              [(f0, [a])] ++ (interleaveRound rest).1.foldl addToGroup [] := by
            apply foldl_addToGroup_append_left
            intro y hy
            simp only [List.map_cons, List.map_nil, List.mem_singleton]
            intro he
            exact hnd.1 (he ▸ mem_family_interleaveRound_out hrest hy)
          simp only [List.append_nil] at hpre
          rw [hpre]
          show (f0, [a]) :: groupByFamily (interleaveRound rest).1 = _
          rw [ih hnd.2 hrest]
          rfl

/-- Regrouping the full interleaved output recovers the groups (with empty
queues dropped). -/
theorem groupByFamily_interleaveLoop {g : List (Nat × List AddressInfoTuple)}
    (hnd : keysNodup g) (hfc : famConsistent g) :
    groupByFamily (interleaveLoop g) = dropEmpty g := by
  rw [interleaveLoop_eq]
  by_cases hnil : (interleaveRound g).2 = []
  · rw [if_pos hnil, out_nil_of_interleaveRound_nil hnil,
      dropEmpty_all_empty (all_empty_of_interleaveRound_nil hnil)]
    rfl
  · rw [if_neg hnil]
    unfold groupByFamily
    rw [List.foldl_append]
    have hout := groupByFamily_interleaveRound_out hnd hfc
    unfold groupByFamily at hout
    rw [hout]
    have hndr : keysNodup (interleaveRound g).2 := keysNodup_interleaveRound hnd
    have hfcr : famConsistent (interleaveRound g).2 := famConsistent_interleaveRound hfc
    have hkeys : ((dropEmpty g).map (fun p => (p.1, p.2.take 1))).map Prod.fst =
        (dropEmpty g).map Prod.fst := by
      rw [List.map_map]
      rfl
    have hnd' : keysNodup ((dropEmpty g).map (fun p => (p.1, p.2.take 1))) := by
      unfold keysNodup
      rw [hkeys]
      exact keysNodup_dropEmpty hnd
    have hsub : ∀ x ∈ interleaveLoop (interleaveRound g).2,
        x.family ∈ ((dropEmpty g).map (fun p => (p.1, p.2.take 1))).map Prod.fst := by
      intro x hx
      rw [hkeys, ← keys_interleaveRound_eq_dropEmpty]
      exact mem_family_interleaveLoop hfcr hx
    rw [foldl_addToGroup_eq_map _ _ hnd' hsub, List.map_map]
    have hpt : ∀ p ∈ dropEmpty g,
        ((fun p : Nat × List AddressInfoTuple =>
            (p.1, p.2 ++ famFilter p.1 (interleaveLoop (interleaveRound g).2))) ∘
          (fun p : Nat × List AddressInfoTuple => (p.1, p.2.take 1))) p = id p := by
      intro p hp
      obtain ⟨hpg, hpne⟩ := mem_of_mem_dropEmpty hp
      simp only [Function.comp_apply, id_eq]
      rw [famFilter_interleaveLoop hndr hfcr, lookupD_interleaveRound hnd,
        lookupD_of_mem hnd hpg, take_one_append_tail]
    rw [List.map_congr_left hpt, List.map_id]

/-- Regrouping the interleaved output of `interleave_family` yields exactly
the original grouping. -/
theorem groupByFamily_interleave_family (l : List AddressInfoTuple) :
    groupByFamily (interleave_family l) = groupByFamily l := by
  unfold interleave_family
  rw [groupByFamily_interleaveLoop (keysNodup_groupByFamily l)
      (famConsistent_groupByFamily l),
    dropEmpty_eq_self (nonempty_groupByFamily l)]

theorem foldl_addToGroup_single {f : Nat} (l : List AddressInfoTuple)
    (hf : ∀ x ∈ l, x.family = f) :
    ∀ q : List AddressInfoTuple, l.foldl addToGroup [(f, q)] = [(f, q ++ l)] := by
  induction l with
  | nil => intro q; simp
  | cons x xs ih =>
      intro q
      have hx : x.family = f := hf x (List.mem_cons_self _ _)
      show xs.foldl addToGroup (addToGroup [(f, q)] x) = _
      have hstep : addToGroup [(f, q)] x = [(f, q ++ [x])] := by
        simp [addToGroup, hx]
      rw [hstep, ih (fun y hy => hf y (List.mem_cons_of_mem _ hy)) (q ++ [x]),
        List.append_assoc]
      rfl

/-- A single-family input is grouped into one queue holding the whole list. -/
theorem groupByFamily_single {f : Nat} {a : AddressInfoTuple}
    {rest : List AddressInfoTuple} (hf : ∀ x ∈ a :: rest, x.family = f) :
    groupByFamily (a :: rest) = [(f, a :: rest)] := by
  have ha : a.family = f := hf a (List.mem_cons_self _ _)
  show rest.foldl addToGroup (addToGroup [] a) = _
  have hstep : addToGroup [] a = [(f, [a])] := by
    simp [addToGroup, ha]
  rw [hstep, foldl_addToGroup_single rest (fun y hy => hf y (List.mem_cons_of_mem _ hy))]
  rfl

/-- A single-family input passes through `interleave_family` unchanged. -/
theorem interleave_family_single {f : Nat} (l : List AddressInfoTuple)
    (hf : ∀ x ∈ l, x.family = f) : interleave_family l = l := by
  cases l with
  | nil =>
      unfold interleave_family groupByFamily
      rw [interleaveLoop_eq]
      simp [interleaveRound]
  | cons a rest =>
      unfold interleave_family
      rw [groupByFamily_single hf, interleaveLoop_single]

theorem mem_unregister {w s : Nat} {p : List (Nat × Addr)} :
    s ∈ (unregister w p).map Prod.fst ↔ s ∈ p.map Prod.fst ∧ s ≠ w := by
  induction p with
  | nil => simp [unregister]
  | cons q rest ih =>
      by_cases hq : q.1 = w
      · simp only [unregister, if_pos hq, ih, List.map_cons, List.mem_cons]
        constructor
        · exact fun h => ⟨Or.inr h.1, h.2⟩
        · rintro ⟨h | h, hne⟩
          · exact absurd (h.trans hq) hne
          · exact ⟨h, hne⟩
      · simp only [unregister, if_neg hq, List.map_cons, List.mem_cons, ih]
        constructor
        · rintro (h | h)
          · exact ⟨Or.inl h, fun he => hq (he ▸ h).symm⟩
          · exact ⟨Or.inr h.1, h.2⟩
        · rintro ⟨h | h, hne⟩
          · exact Or.inl h
          · exact Or.inr ⟨h, hne⟩

theorem nodup_unregister {w : Nat} {p : List (Nat × Addr)}
    (h : (p.map Prod.fst).Nodup) : ((unregister w p).map Prod.fst).Nodup := by
  induction p with
  | nil => simp [unregister]
  | cons q rest ih =>
      simp only [List.map_cons, List.nodup_cons] at h
      by_cases hq : q.1 = w
      · simp only [unregister, if_pos hq]
        exact ih h.2
      · simp only [unregister, if_neg hq, List.map_cons, List.nodup_cons]
        exact ⟨fun hm => h.1 (mem_unregister.mp hm).1, ih h.2⟩

theorem lookupPending_some_mem {w : Nat} {a : Addr} {p : List (Nat × Addr)}
    (h : lookupPending w p = some a) : w ∈ p.map Prod.fst := by
  induction p with
  | nil => cases h
  | cons q rest ih =>
      by_cases hq : q.1 = w
      · exact List.mem_cons.mpr (Or.inl hq.symm)
      · rw [lookupPending, if_neg hq] at h
        exact List.mem_cons_of_mem _ (ih h)

theorem harvest_inv {st : RaceState} (hInv : Inv st) (evts : List SelectEvent) :
    (∀ st', harvest st evts = .done st' → Inv st') ∧
    (∀ w st', harvest st evts = .success w st' → ConnPost w st') := by
  induction evts generalizing st with
  | nil =>
      refine ⟨fun st' h => ?_, fun w st' h => ?_⟩
      · cases h; exact hInv
      · cases h
  | cons e rest ih =>
      by_cases hw : e.isWrite = false
      · rw [show harvest st (e :: rest) = harvest st rest by rw [harvest, if_pos hw]]
        exact ih hInv
      · cases hlp : lookupPending e.sock st.pending with
        | none =>
            rw [show harvest st (e :: rest) = harvest st rest by
              rw [harvest, if_neg hw, hlp]]
            exact ih hInv
        | some addr =>
            have hmem : e.sock ∈ pendSocks st := lookupPending_some_mem hlp
            by_cases herr : e.soError ≠ 0
            · rw [show harvest st (e :: rest) =
                  harvest { st with
                    pending := unregister e.sock st.pending
                    exceptions := st.exceptions ++ [.harvestError e.soError addr]
                    closed := st.closed ++ [e.sock] } rest by
                rw [harvest, if_neg hw, hlp]
                simp only [if_pos herr]]
              apply ih
              constructor
              · exact hInv.opened_lt
              · intro s hs
                exact hInv.pend_opened s (mem_unregister.mp hs).1
              · intro s hs
                rcases List.mem_append.mp hs with hs | hs
                · exact hInv.closed_opened s hs
                · simp only [List.mem_singleton] at hs
                  subst hs
                  exact hInv.pend_opened _ hmem
              · intro s hs
                rcases hInv.opened_covered s hs with hc | hp
                · exact Or.inl (List.mem_append.mpr (Or.inl hc))
                · by_cases hsw : s = e.sock
                  · exact Or.inl (List.mem_append.mpr (Or.inr (by simp [hsw])))
                  · exact Or.inr (mem_unregister.mpr ⟨hp, hsw⟩)
              · exact nodup_unregister hInv.pend_nodup
              · intro s hs hc
                obtain ⟨hsp, hsw⟩ := mem_unregister.mp hs
                rcases List.mem_append.mp hc with hc | hc
                · exact hInv.pend_not_closed s hsp hc
                · simp only [List.mem_singleton] at hc
                  exact hsw hc
            · refine ⟨fun st' h => ?_, fun w st' h => ?_⟩
              · rw [harvest, if_neg hw, hlp] at h
                simp only [if_neg herr] at h
                cases h
              · rw [harvest, if_neg hw, hlp] at h
                simp only [if_neg herr] at h
                cases h
                constructor
                · exact hInv.pend_opened _ hmem
                · exact hInv.pend_not_closed _ hmem
                · intro hm
                  exact (mem_unregister.mp hm).2 rfl
                · intro s hs
                  rcases hInv.opened_covered s hs with hc | hp
                  · exact Or.inr (Or.inl hc)
                  · by_cases hsw : s = e.sock
                    · exact Or.inl hsw
                    · exact Or.inr (Or.inr (mem_unregister.mpr ⟨hp, hsw⟩))

theorem fresh_not_opened {st : RaceState} (hInv : Inv st) : st.nextSock ∉ st.opened :=
  fun h => lt_irrefl _ (hInv.opened_lt _ h)

theorem fresh_not_closed {st : RaceState} (hInv : Inv st) : st.nextSock ∉ st.closed :=
  fun h => fresh_not_opened hInv (hInv.closed_opened _ h)

theorem fresh_not_pending {st : RaceState} (hInv : Inv st) : st.nextSock ∉ pendSocks st :=
  fun h => fresh_not_opened hInv (hInv.pend_opened _ h)

theorem afterAdmit_inv {st : RaceState} (hInv : Inv st) (env : Env) (timeout now : ℚ) :
    match afterAdmit env timeout st now with
    | .inl st' => Inv st'
    | .inr (out, st') => PostOK out st' := by
  unfold afterAdmit
  by_cases hp : st.pending = []
  · simp only [if_pos hp]
    intro s hs
    exact hInv.opened_covered s hs
  · simp only [if_neg hp]
    have hInv1 : Inv (pollState env timeout st now) :=
      ⟨hInv.opened_lt, hInv.pend_opened, hInv.closed_opened, hInv.opened_covered,
        hInv.pend_nodup, hInv.pend_not_closed⟩
    have hh := harvest_inv hInv1 (env.selectEvents st.polls)
    cases hm : harvest (pollState env timeout st now) (env.selectEvents st.polls) with
    | success w st2 =>
        simp only [hm]
        exact hh.2 w st2 hm
    | done st2 =>
        simp only [hm]
        by_cases hd : (pollState env timeout st now).delay = 0
        · simp only [if_pos hd]
          exact (hh.1 st2 hm).opened_covered
        · simp only [if_neg hd]
          have h2 := hh.1 st2 hm
          exact ⟨h2.opened_lt, h2.pend_opened, h2.closed_opened, h2.opened_covered,
            h2.pend_nodup, h2.pend_not_closed⟩

theorem raceStep_inv {st : RaceState} (hInv : Inv st) (env : Env) (timeout : ℚ) :
    match raceStep env timeout st with
    | .inl st' => Inv st'
    | .inr (out, st') => PostOK out st' := by
  unfold raceStep
  cases hrem : st.remaining with
  | nil => exact afterAdmit_inv hInv env timeout (env.timeAt st.iter)
  | cons info rest =>
      cases hf : env.factory st.attempted.length with
      | error e =>
          simp only [hf]
          apply afterAdmit_inv _ env timeout (env.timeAt st.iter)
          exact ⟨hInv.opened_lt, hInv.pend_opened, hInv.closed_opened,
            hInv.opened_covered, hInv.pend_nodup, hInv.pend_not_closed⟩
      | ok u =>
          have hfresh_cl := fresh_not_closed hInv
          have hfresh_pd := fresh_not_pending hInv
          cases hc : env.connect st.attempted.length with
          | success =>
              simp only [hf, hc]
              constructor
              · exact List.mem_append.mpr (Or.inr (List.mem_singleton.mpr rfl))
              · exact hfresh_cl
              · exact hfresh_pd
              · intro s hs
                rcases List.mem_append.mp hs with hs | hs
                · exact Or.inr ((hInv.opened_covered s hs).imp id id)
                · simp only [List.mem_singleton] at hs
                  exact Or.inl hs
          | wouldBlock =>
              simp only [hf, hc]
              apply afterAdmit_inv _ env timeout (env.timeAt st.iter)
              constructor
              · intro s hs
                rcases List.mem_append.mp hs with hs | hs
                · exact Nat.lt_succ_of_lt (hInv.opened_lt s hs)
                · simp only [List.mem_singleton] at hs
                  exact hs ▸ Nat.lt_succ_self _
              · intro s hs
                have hs' : s ∈ pendSocks st ++ [st.nextSock] := by
                  simpa [pendSocks] using hs
                rcases List.mem_append.mp hs' with hs' | hs'
                · exact List.mem_append.mpr (Or.inl (hInv.pend_opened s hs'))
                · simp only [List.mem_singleton] at hs'
                  exact List.mem_append.mpr (Or.inr (by simp [hs']))
              · intro s hs
                exact List.mem_append.mpr (Or.inl (hInv.closed_opened s hs))
              · intro s hs
                rcases List.mem_append.mp hs with hs | hs
                · rcases hInv.opened_covered s hs with hc' | hp'
                  · exact Or.inl hc'
                  · refine Or.inr ?_
                    show s ∈ (st.pending ++ [(st.nextSock, info.sockaddr)]).map Prod.fst
                    rw [List.map_append]
                    exact List.mem_append.mpr (Or.inl hp')
                · simp only [List.mem_singleton] at hs
                  refine Or.inr ?_
                  show s ∈ (st.pending ++ [(st.nextSock, info.sockaddr)]).map Prod.fst
                  rw [List.map_append]
                  exact List.mem_append.mpr (Or.inr (by simp [hs]))
              · show ((st.pending ++ [(st.nextSock, info.sockaddr)]).map Prod.fst).Nodup
                rw [List.map_append]
                rw [List.nodup_append]
                refine ⟨hInv.pend_nodup, List.nodup_singleton _, ?_⟩
                intro a ha hb
                simp only [List.map_cons, List.map_nil, List.mem_singleton] at hb
                subst hb
                exact hfresh_pd ha
              · intro s hs
                have hs' : s ∈ pendSocks st ++ [st.nextSock] := by
                  simpa [pendSocks] using hs
                rcases List.mem_append.mp hs' with hs' | hs'
                · exact hInv.pend_not_closed s hs'
                · simp only [List.mem_singleton] at hs'
                  exact hs' ▸ hfresh_cl
          | failure m =>
              simp only [hf, hc]
              constructor
              · intro s hs
                rcases List.mem_append.mp hs with hs | hs
                · exact Nat.lt_succ_of_lt (hInv.opened_lt s hs)
                · simp only [List.mem_singleton] at hs
                  exact hs ▸ Nat.lt_succ_self _
              · intro s hs
                exact List.mem_append.mpr (Or.inl (hInv.pend_opened s hs))
              · intro s hs
                rcases List.mem_append.mp hs with hs | hs
                · exact List.mem_append.mpr (Or.inl (hInv.closed_opened s hs))
                · simp only [List.mem_singleton] at hs
                  exact List.mem_append.mpr (Or.inr (by simp [hs]))
              · intro s hs
                rcases List.mem_append.mp hs with hs | hs
                · rcases hInv.opened_covered s hs with hc' | hp'
                  · exact Or.inl (List.mem_append.mpr (Or.inl hc'))
                  · exact Or.inr hp'
                · simp only [List.mem_singleton] at hs
                  exact Or.inl (List.mem_append.mpr (Or.inr (by simp [hs])))
              · exact hInv.pend_nodup
              · intro s hs hcl
                rcases List.mem_append.mp hcl with hcl | hcl
                · exact hInv.pend_not_closed s hs hcl
                · simp only [List.mem_singleton] at hcl
                  exact hfresh_pd (hcl ▸ hs)

theorem raceRun_inv (env : Env) (timeout : ℚ) :
    ∀ (fuel : Nat) (st : RaceState), Inv st →
      PostOK (raceRun env timeout fuel st).1 (raceRun env timeout fuel st).2 := by
  intro fuel
  induction fuel with
  | zero =>
      intro st h
      exact h.opened_covered
  | succ n ih =>
      intro st h
      have hs := raceStep_inv h env timeout
      show PostOK (raceRun env timeout (n + 1) st).1 (raceRun env timeout (n + 1) st).2
      unfold raceRun
      cases hstep : raceStep env timeout st with
      | inl st' =>
          simp only [hstep]
          rw [hstep] at hs
          exact ih st' hs
      | inr r =>
          obtain ⟨out, st'⟩ := r
          simp only [hstep]
          rw [hstep] at hs
          exact hs

theorem initState_inv (addrs : List AddressInfoTuple) (delay : ℚ) :
    Inv (initState addrs delay) := by
  constructor <;> simp [initState, pendSocks]

/-- Composing the loop post-condition with the `finally:` cleanup. -/
theorem cleanup_postOK {out : Outcome} {st : RaceState} (h : PostOK out st) :
    (∀ s ∈ (cleanup st).opened, s ∈ (cleanup st).closed ∨ out = .connected s) ∧
    (∀ w, out = .connected w →
      w ∈ (cleanup st).opened ∧ w ∉ (cleanup st).closed) ∧
    (cleanup st).pending = [] := by
  cases out with
  | connected w =>
      have hc : ConnPost w st := h
      refine ⟨?_, ?_, rfl⟩
      · intro s hs
        rcases hc.rest_covered s hs with he | hcl | hp
        · exact Or.inr (by rw [he])
        · exact Or.inl (List.mem_append.mpr (Or.inl hcl))
        · exact Or.inl (List.mem_append.mpr (Or.inr hp))
      · intro w' hw
        cases hw
        refine ⟨hc.won_opened, fun hcl => ?_⟩
        rcases List.mem_append.mp hcl with hcl | hcl
        · exact hc.won_not_closed hcl
        · exact hc.won_not_pending hcl
  | failed errs =>
      refine ⟨?_, ?_, rfl⟩
      · intro s hs
        exact Or.inl (List.mem_append.mpr ((h s hs).imp id id))
      · intro w' hw
        cases hw
  | timedOut =>
      refine ⟨?_, ?_, rfl⟩
      · intro s hs
        exact Or.inl (List.mem_append.mpr ((h s hs).imp id id))
      · intro w' hw
        cases hw
  | outOfFuel =>
      refine ⟨?_, ?_, rfl⟩
      · intro s hs
        exact Or.inl (List.mem_append.mpr ((h s hs).imp id id))
      · intro w' hw
        cases hw

/-- Harvesting touches only the selector map, the error list, the closed
set and the modes: candidate stream and counters are untouched. -/
theorem harvest_frame (evts : List SelectEvent) :
    ∀ st st' : RaceState,
      (harvest st evts = .done st' ∨ ∃ w, harvest st evts = .success w st') →
      st'.remaining = st.remaining ∧ st'.attempted = st.attempted ∧
        st'.opened = st.opened ∧ st'.nextSock = st.nextSock ∧
        st'.delay = st.delay ∧ st'.iter = st.iter ∧ st'.polls = st.polls := by
  induction evts with
  | nil =>
      intro st st' h
      rcases h with h | ⟨w, h⟩
      · cases h; exact ⟨rfl, rfl, rfl, rfl, rfl, rfl, rfl⟩
      · cases h
  | cons e rest ih =>
      intro st st' h
      by_cases hw : e.isWrite = false
      · rw [show harvest st (e :: rest) = harvest st rest by rw [harvest, if_pos hw]] at h
        exact ih st st' h
      · cases hlp : lookupPending e.sock st.pending with
        | none =>
            rw [show harvest st (e :: rest) = harvest st rest by
              rw [harvest, if_neg hw, hlp]] at h
            exact ih st st' h
        | some addr =>
            by_cases herr : e.soError ≠ 0
            · rw [show harvest st (e :: rest) =
                  harvest { st with
                    pending := unregister e.sock st.pending
                    exceptions := st.exceptions ++ [.harvestError e.soError addr]
                    closed := st.closed ++ [e.sock] } rest by
                rw [harvest, if_neg hw, hlp]
                simp only [if_pos herr]] at h
              have hres := ih _ st' h
              exact hres
            · rcases h with h | ⟨w, h⟩
              · rw [harvest, if_neg hw, hlp] at h
                simp only [if_neg herr] at h
                cases h
              · rw [harvest, if_neg hw, hlp] at h
                simp only [if_neg herr] at h
                cases h
                exact ⟨rfl, rfl, rfl, rfl, rfl, rfl, rfl⟩

/-- The post-admit tail of an iteration does not touch the candidate
stream. -/
theorem afterAdmit_frame (env : Env) (timeout : ℚ) (st : RaceState) (now : ℚ) :
    (stepState (afterAdmit env timeout st now)).remaining = st.remaining ∧
      (stepState (afterAdmit env timeout st now)).attempted = st.attempted := by
  unfold afterAdmit
  by_cases hp : st.pending = []
  · simp only [if_pos hp]
    exact ⟨rfl, rfl⟩
  · simp only [if_neg hp]
    cases hm : harvest (pollState env timeout st now) (env.selectEvents st.polls) with
    | success w st2 =>
        simp only [hm]
        have := harvest_frame (env.selectEvents st.polls) _ st2 (Or.inr ⟨w, hm⟩)
        exact ⟨this.1, this.2.1⟩
    | done st2 =>
        simp only [hm]
        have := harvest_frame (env.selectEvents st.polls) _ st2 (Or.inl hm)
        by_cases hd : (pollState env timeout st now).delay = 0
        · simp only [if_pos hd]
          exact ⟨this.1, this.2.1⟩
        · simp only [if_neg hd]
          exact ⟨this.1, this.2.1⟩

/-- Iterator exhausted: the iteration is just its post-admit tail. -/
theorem raceStep_nil_eq (env : Env) (timeout : ℚ) {st : RaceState}
    (h : st.remaining = []) :
    raceStep env timeout st = afterAdmit env timeout st (env.timeAt st.iter) := by
  unfold raceStep
  rw [h]

/-- Socket construction fails: the error is recorded without an address
note, the candidate is consumed, and control falls through to the
pending-check and poll (no `continue`). -/
theorem raceStep_factory_error_eq (env : Env) (timeout : ℚ) {st : RaceState}
    {info : AddressInfoTuple} {rest : List AddressInfoTuple} {e : String}
    (h : st.remaining = info :: rest)
    (hf : env.factory st.attempted.length = .error e) :
    raceStep env timeout st =
      afterAdmit env timeout
        { st with
            remaining := rest
            attempted := st.attempted ++ [info]
            exceptions := st.exceptions ++ [.constructionError e] }
        (env.timeAt st.iter) := by
  unfold raceStep
  rw [h]
  simp only [hf]

/-- Synchronous connect success: the new socket is set back to blocking and
returned at once; nothing else changes. -/
theorem raceStep_connect_success_eq (env : Env) (timeout : ℚ) {st : RaceState}
    {info : AddressInfoTuple} {rest : List AddressInfoTuple}
    (h : st.remaining = info :: rest)
    (hf : env.factory st.attempted.length = .ok ())
    (hc : env.connect st.attempted.length = .success) :
    raceStep env timeout st = .inr (.connected st.nextSock,
      { st with
          remaining := rest
          attempted := st.attempted ++ [info]
          nextSock := st.nextSock + 1
          opened := st.opened ++ [st.nextSock]
          modes := (st.nextSock, true) :: (st.nextSock, false) :: st.modes }) := by
  unfold raceStep
  rw [h]
  simp only [hf, hc]

/-- Connect would block: the new socket is registered for write readiness,
tagged with its target address, and the iteration proceeds to the poll. -/
theorem raceStep_wouldBlock_eq (env : Env) (timeout : ℚ) {st : RaceState}
    {info : AddressInfoTuple} {rest : List AddressInfoTuple}
    (h : st.remaining = info :: rest)
    (hf : env.factory st.attempted.length = .ok ())
    (hc : env.connect st.attempted.length = .wouldBlock) :
    raceStep env timeout st =
      afterAdmit env timeout
        { st with
            remaining := rest
            attempted := st.attempted ++ [info]
            nextSock := st.nextSock + 1
            opened := st.opened ++ [st.nextSock]
            modes := (st.nextSock, false) :: st.modes
            pending := st.pending ++ [(st.nextSock, info.sockaddr)] }
        (env.timeAt st.iter) := by
  unfold raceStep
  rw [h]
  simp only [hf, hc]

/-- Immediate connect failure: the error is recorded with the address note,
the socket is closed, and the loop restarts at once (`continue`) — no poll
is made and the poll counter and delay are untouched. -/
theorem raceStep_connect_failure_eq (env : Env) (timeout : ℚ) {st : RaceState}
    {info : AddressInfoTuple} {rest : List AddressInfoTuple} {m : String}
    (h : st.remaining = info :: rest)
    (hf : env.factory st.attempted.length = .ok ())
    (hc : env.connect st.attempted.length = .failure m) :
    raceStep env timeout st = .inl
      { st with
          remaining := rest
          attempted := st.attempted ++ [info]
          nextSock := st.nextSock + 1
          opened := st.opened ++ [st.nextSock]
          modes := (st.nextSock, false) :: st.modes
          exceptions := st.exceptions ++ [.connectError m info.sockaddr]
          closed := st.closed ++ [st.nextSock]
          iter := st.iter + 1 } := by
  unfold raceStep
  rw [h]
  simp only [hf, hc]

/-- One loop iteration dequeues at most one candidate, and dequeues it from
the front: either the stream and the attempt log are untouched, or the head
candidate moves (alone) to the end of the attempt log. -/
theorem raceStep_consume (env : Env) (timeout : ℚ) (st : RaceState) :
    ((stepState (raceStep env timeout st)).attempted = st.attempted ∧
      (stepState (raceStep env timeout st)).remaining = st.remaining) ∨
    (∃ c rest, st.remaining = c :: rest ∧
      (stepState (raceStep env timeout st)).attempted = st.attempted ++ [c] ∧
      (stepState (raceStep env timeout st)).remaining = rest) := by
  cases hrem : st.remaining with
  | nil =>
      left
      rw [raceStep_nil_eq env timeout hrem]
      have hfr := afterAdmit_frame env timeout st (env.timeAt st.iter)
      exact ⟨hfr.2, hfr.1.trans hrem⟩
  | cons info rest =>
      right
      refine ⟨info, rest, rfl, ?_⟩
      cases hf : env.factory st.attempted.length with
      | error e =>
          rw [raceStep_factory_error_eq env timeout hrem hf]
          have hfr := afterAdmit_frame env timeout
            { st with
                remaining := rest
                attempted := st.attempted ++ [info]
                exceptions := st.exceptions ++ [.constructionError e] }
            (env.timeAt st.iter)
          exact ⟨hfr.2, hfr.1⟩
      | ok u =>
          cases u
          cases hc : env.connect st.attempted.length with
          | success =>
              rw [raceStep_connect_success_eq env timeout hrem hf hc]
              exact ⟨rfl, rfl⟩
          | wouldBlock =>
              rw [raceStep_wouldBlock_eq env timeout hrem hf hc]
              have hfr := afterAdmit_frame env timeout
                { st with
                    remaining := rest
                    attempted := st.attempted ++ [info]
                    nextSock := st.nextSock + 1
                    opened := st.opened ++ [st.nextSock]
                    modes := (st.nextSock, false) :: st.modes
                    pending := st.pending ++ [(st.nextSock, info.sockaddr)] }
                (env.timeAt st.iter)
              exact ⟨hfr.2, hfr.1⟩
          | failure m =>
              rw [raceStep_connect_failure_eq env timeout hrem hf hc]
              exact ⟨rfl, rfl⟩

/-- Across a whole run, the attempt log plus the unconsumed stream is the
original stream: candidates are consumed from the front, in order, at most
once. -/
theorem raceRun_stream (env : Env) (timeout : ℚ) :
    ∀ (fuel : Nat) (st : RaceState),
      (raceRun env timeout fuel st).2.attempted ++
        (raceRun env timeout fuel st).2.remaining = st.attempted ++ st.remaining := by
  intro fuel
  induction fuel with
  | zero => intro st; rfl
  | succ n ih =>
      intro st
      have hcons := raceStep_consume env timeout st
      show (raceRun env timeout (n + 1) st).2.attempted ++ _ = _
      unfold raceRun
      cases hstep : raceStep env timeout st with
      | inl st' =>
          simp only [hstep]
          rw [hstep] at hcons
          rcases hcons with ⟨h1, h2⟩ | ⟨c, rest, hr, h1, h2⟩
          · rw [ih st']
            simp only [stepState] at h1 h2
            rw [h1, h2]
          · rw [ih st']
            simp only [stepState] at h1 h2
            rw [h1, h2, hr, List.append_assoc]
            rfl
      | inr r =>
          obtain ⟨out, st'⟩ := r
          simp only [hstep]
          rw [hstep] at hcons
          rcases hcons with ⟨h1, h2⟩ | ⟨c, rest, hr, h1, h2⟩
          · simp only [stepState] at h1 h2
            rw [h1, h2]
          · simp only [stepState] at h1 h2
            rw [h1, h2, hr, List.append_assoc]
            rfl

/-! ### Timeout behaviour lemmas -/

theorem clampDelay_zero_timeout (start now d : ℚ) : clampDelay 0 start now d = d := by
  rw [clampDelay, if_pos rfl]

/-- With a non-zero timeout, an exhausted budget and a non-negative delay,
the clamp drives the poll delay to zero. -/
theorem clampDelay_exhausted {timeout start now d : ℚ} (ht : timeout ≠ 0)
    (hd : 0 ≤ d) (hb : timeout ≤ now - start) : clampDelay timeout start now d = 0 := by
  rw [clampDelay, if_neg ht]
  have hmax : max 0 (timeout - (now - start)) = 0 := max_eq_left (by linarith)
  rw [hmax]
  exact min_eq_right hd

theorem afterAdmit_no_timeout (env : Env) (st : RaceState) (now : ℚ)
    (h0 : st.delay ≠ 0) :
    (∀ st', afterAdmit env 0 st now = .inl st' → st'.delay = st.delay) ∧
    (∀ out st', afterAdmit env 0 st now = .inr (out, st') → out ≠ .timedOut) := by
  have hps : (pollState env 0 st now).delay = st.delay :=
    clampDelay_zero_timeout env.start now st.delay
  unfold afterAdmit
  by_cases hp : st.pending = []
  · simp only [if_pos hp]
    refine ⟨fun st' h => ?_, fun out st' h => ?_⟩
    · cases h
    · cases h
      simp
  · simp only [if_neg hp]
    cases hm : harvest (pollState env 0 st now) (env.selectEvents st.polls) with
    | success w st2 =>
        simp only [hm]
        refine ⟨fun st' h => ?_, fun out st' h => ?_⟩
        · cases h
        · cases h
          simp
    | done st2 =>
        simp only [hm]
        have hfr := harvest_frame (env.selectEvents st.polls) _ st2 (Or.inl hm)
        rw [if_neg (by rw [hps]; exact h0)]
        refine ⟨fun st' h => ?_, fun out st' h => by cases h⟩
        cases h
        show st2.delay = st.delay
        rw [hfr.2.2.2.2.1, hps]

theorem raceStep_no_timeout (env : Env) (st : RaceState) (h0 : st.delay ≠ 0) :
    (∀ st', raceStep env 0 st = .inl st' → st'.delay = st.delay) ∧
    (∀ out st', raceStep env 0 st = .inr (out, st') → out ≠ .timedOut) := by
  cases hrem : st.remaining with
  | nil =>
      rw [raceStep_nil_eq env 0 hrem]
      exact afterAdmit_no_timeout env st (env.timeAt st.iter) h0
  | cons info rest =>
      cases hf : env.factory st.attempted.length with
      | error e =>
          rw [raceStep_factory_error_eq env 0 hrem hf]
          exact afterAdmit_no_timeout env _ (env.timeAt st.iter) h0
      | ok u =>
          cases u
          cases hc : env.connect st.attempted.length with
          | success =>
              rw [raceStep_connect_success_eq env 0 hrem hf hc]
              refine ⟨fun st' h => ?_, fun out st' h => ?_⟩
              · cases h
              · cases h
                simp
          | wouldBlock =>
              rw [raceStep_wouldBlock_eq env 0 hrem hf hc]
              exact afterAdmit_no_timeout env _ (env.timeAt st.iter) h0
          | failure m =>
              rw [raceStep_connect_failure_eq env 0 hrem hf hc]
              refine ⟨fun st' h => ?_, fun out st' h => ?_⟩
              · cases h
                exact rfl
              · cases h

theorem raceRun_no_timeout (env : Env) :
    ∀ (fuel : Nat) (st : RaceState), st.delay ≠ 0 →
      (raceRun env 0 fuel st).1 ≠ .timedOut := by
  intro fuel
  induction fuel with
  | zero =>
      intro st h0
      simp [raceRun]
  | succ n ih =>
      intro st h0
      have hnt := raceStep_no_timeout env st h0
      show (raceRun env 0 (n + 1) st).1 ≠ .timedOut
      unfold raceRun
      cases hstep : raceStep env 0 st with
      | inl st' =>
          simp only [hstep]
          exact ih st' (by rw [hnt.1 st' hstep]; exact h0)
      | inr r =>
          obtain ⟨out, st'⟩ := r
          simp only [hstep]
          exact hnt.2 out st' hstep

/-! ### Blocking-mode restoration lemma -/

theorem harvest_success_mode (evts : List SelectEvent) :
    ∀ st w st', harvest st evts = .success w st' → getMode st'.modes w = some true := by
  induction evts with
  | nil => intro st w st' h; cases h
  | cons e rest ih =>
      intro st w st' h
      by_cases hw : e.isWrite = false
      · rw [show harvest st (e :: rest) = harvest st rest by rw [harvest, if_pos hw]] at h
        exact ih st w st' h
      · cases hlp : lookupPending e.sock st.pending with
        | none =>
            rw [show harvest st (e :: rest) = harvest st rest by
              rw [harvest, if_neg hw, hlp]] at h
            exact ih st w st' h
        | some addr =>
            by_cases herr : e.soError ≠ 0
            · rw [show harvest st (e :: rest) =
                  harvest { st with
                    pending := unregister e.sock st.pending
                    exceptions := st.exceptions ++ [.harvestError e.soError addr]
                    closed := st.closed ++ [e.sock] } rest by
                rw [harvest, if_neg hw, hlp]
                simp only [if_pos herr]] at h
              exact ih _ w st' h
            · rw [harvest, if_neg hw, hlp] at h
              simp only [if_neg herr] at h
              cases h
              show getMode ((e.sock, true) :: st.modes) e.sock = some true
              rw [getMode, if_pos rfl]

/-- C5: `interleave_family` partitions the candidates into per-family queues
preserving arrival order and emits them round-robin over the families in
first-appearance order, dropping a family once exhausted; in particular
family pattern `[A,A,A,B]` yields `[A,B,A,A]`, `[A,B]` yields `[A,B]`,
single-family input is returned unchanged, and empty input yields the empty
sequence. -/
theorem interleave_family_spec :
    interleave_family [infoA1, infoA2, infoA3, infoB1] =
        [infoA1, infoB1, infoA2, infoA3] ∧
    interleave_family [infoA1, infoB1] = [infoA1, infoB1] ∧
    (∀ (l : List AddressInfoTuple) (f : Nat),
      (∀ x ∈ l, x.family = f) → interleave_family l = l) ∧
    interleave_family [] = [] := by
  refine ⟨?_, ?_, fun l f hf => interleave_family_single l hf, ?_⟩
  · simp only [interleave_family, groupByFamily, List.foldl_cons, List.foldl_nil,
      addToGroup, infoA1, infoA2, infoA3, infoB1]
    norm_num
    rw [interleaveLoop_eq]
    simp [interleaveRound]
    rw [interleaveLoop_eq]
    simp [interleaveRound]
    rw [interleaveLoop_eq]
    simp [interleaveRound]
    rw [interleaveLoop_eq]
    simp [interleaveRound]
  · simp only [interleave_family, groupByFamily, List.foldl_cons, List.foldl_nil,
      addToGroup, infoA1, infoB1]
    norm_num
    rw [interleaveLoop_eq]
    simp [interleaveRound]
    rw [interleaveLoop_eq]
    simp [interleaveRound]
  · rw [interleave_family, groupByFamily, List.foldl_nil, interleaveLoop_eq]
    simp [interleaveRound]

/-- Witness for C5: the single-family clause applied to the one-element
IPv4 list. -/
theorem interleave_family_spec_witness : interleave_family [infoA1] = [infoA1] :=
  interleave_family_spec.2.2.1 [infoA1] 2 (by decide)

/-- C8: `interleave_family` is idempotent — interleaving an
already-interleaved sequence produces the same sequence. -/
theorem interleave_family_idempotent (l : List AddressInfoTuple) :
    interleave_family (interleave_family l) = interleave_family l := by
  show interleaveLoop (groupByFamily (interleave_family l)) = interleave_family l
  rw [groupByFamily_interleave_family]
  rfl

/-- C10: on an empty candidate sequence `connect_addresses` constructs no
socket, performs no readiness poll, and exits through the no-winner path,
attempting to raise the aggregate failure with an empty error list (it
neither returns a socket nor raises the timeout error).  (In CPython,
`ExceptionGroup` with an empty error list itself raises `ValueError`; the
model records the raise attempt as `.failed []`.) -/
theorem connect_addresses_empty_input (delay timeout : ℚ) (env : Env) (fuel : Nat) :
    (connect_addresses [] delay timeout env (fuel + 1)).1 = .failed [] ∧
    (connect_addresses [] delay timeout env (fuel + 1)).2.opened = [] ∧
    (connect_addresses [] delay timeout env (fuel + 1)).2.polls = 0 ∧
    (connect_addresses [] delay timeout env (fuel + 1)).2.closed = [] ∧
    (connect_addresses [] delay timeout env (fuel + 1)).2.pending = [] :=
  ⟨rfl, rfl, rfl, rfl, rfl⟩

/-- C1: in every execution of `connect_addresses` (and `connect_host`), at
most one socket is returned (the `Outcome` can carry only one), and every
other socket opened during the call is in the closed set once the
`finally:` cleanup has run, on every exit path — success, aggregate
failure, timeout, or a still-running loop; the returned socket itself is
never closed, and the selector is left empty. -/
theorem connect_addresses_resource_safety (addrs : List AddressInfoTuple)
    (delay timeout : ℚ) (env : Env) (fuel : Nat) :
    (∀ s ∈ (connect_addresses addrs delay timeout env fuel).2.opened,
      s ∈ (connect_addresses addrs delay timeout env fuel).2.closed ∨
        (connect_addresses addrs delay timeout env fuel).1 = .connected s) ∧
    (∀ w, (connect_addresses addrs delay timeout env fuel).1 = .connected w →
      w ∈ (connect_addresses addrs delay timeout env fuel).2.opened ∧
        w ∉ (connect_addresses addrs delay timeout env fuel).2.closed) ∧
    (connect_addresses addrs delay timeout env fuel).2.pending = [] ∧
    (∀ s ∈ (connect_host addrs delay timeout env fuel).2.opened,
      s ∈ (connect_host addrs delay timeout env fuel).2.closed ∨
        (connect_host addrs delay timeout env fuel).1 = .connected s) ∧
    (∀ w, (connect_host addrs delay timeout env fuel).1 = .connected w →
      w ∈ (connect_host addrs delay timeout env fuel).2.opened ∧
        w ∉ (connect_host addrs delay timeout env fuel).2.closed) := by
  have h1 := cleanup_postOK
    (raceRun_inv env timeout fuel (initState addrs delay) (initState_inv addrs delay))
  have h2 := cleanup_postOK
    (raceRun_inv env timeout fuel (initState (interleave_family addrs) delay)
      (initState_inv (interleave_family addrs) delay))
  refine ⟨fun s hs => ?_, fun w hw => h1.2.1 w hw, h1.2.2, fun s hs => ?_,
    fun w hw => h2.2.1 w hw⟩
  · exact (h1.1 s hs).imp id (fun h => h.symm) |>.symm.imp (fun h => h.symm) id |>.symm
  · exact (h2.1 s hs).imp id (fun h => h.symm) |>.symm.imp (fun h => h.symm) id |>.symm

/-- C9: the candidate sequence is consumed at most once and in exactly the
order given (for `connect_host`, the order the interleaver produces): one
loop iteration dequeues at most one candidate, always the head, and across
a whole run the attempt log concatenated with the unconsumed stream is the
original stream — so no candidate is attempted twice or out of order. -/
theorem candidates_consumed_in_order (env : Env) (timeout delay : ℚ) (fuel : Nat) :
    (∀ st : RaceState,
      ((stepState (raceStep env timeout st)).attempted = st.attempted ∧
        (stepState (raceStep env timeout st)).remaining = st.remaining) ∨
      (∃ c rest, st.remaining = c :: rest ∧
        (stepState (raceStep env timeout st)).attempted = st.attempted ++ [c] ∧
        (stepState (raceStep env timeout st)).remaining = rest)) ∧
    (∀ addrs : List AddressInfoTuple,
      (connect_addresses addrs delay timeout env fuel).2.attempted ++
        (connect_addresses addrs delay timeout env fuel).2.remaining = addrs) ∧
    (∀ resolved : List AddressInfoTuple,
      (connect_host resolved delay timeout env fuel).2.attempted ++
        (connect_host resolved delay timeout env fuel).2.remaining =
          interleave_family resolved) := by
  refine ⟨fun st => raceStep_consume env timeout st, fun addrs => ?_, fun resolved => ?_⟩
  · exact raceRun_stream env timeout fuel (initState addrs delay)
  · exact raceRun_stream env timeout fuel (initState (interleave_family resolved) delay)

/-- C2 (code/spec divergence at the failing input): with two candidates
where the first one's socket construction fails and nothing is yet pending,
`connect_addresses` raises the aggregate failure containing just that one
error even though the second candidate was never tried — the break at the
pending-check precedes any further admission.  On the other hand, the
positive half of the claim holds: with three candidates that all construct
and are refused at connect, the aggregate carries exactly three errors,
each tagged with its candidate's address, in admission order. -/
theorem connect_addresses_aggregate_bug :
    (connect_addresses [infoB1, infoA1] 1 0 envFirstFactoryFails 5).1 =
        .failed [.constructionError "address family not supported"] ∧
    (connect_addresses [infoB1, infoA1] 1 0 envFirstFactoryFails 5).2.attempted =
        [infoB1] ∧
    (connect_addresses [infoB1, infoA1] 1 0 envFirstFactoryFails 5).2.remaining =
        [infoA1] ∧
    (connect_addresses [infoA1, infoA2, infoA3] 1 0 envAllRefused 4).1 =
        .failed [.connectError "ECONNREFUSED" (.inet "192.0.2.1" 80),
          .connectError "ECONNREFUSED" (.inet "192.0.2.2" 80),
          .connectError "ECONNREFUSED" (.inet "192.0.2.3" 80)] := by
  refine ⟨?_, ?_, ?_, ?_⟩ <;> decide

/-- C4 (code/spec divergence at the failing input): when socket
construction fails for the first candidate (IPv6 unsupported) the error is
recorded as a bare `constructionError` — no address tag is attached on that
path — and, with no attempt pending, the race aborts through the aggregate
raise instead of continuing with the remaining IPv4 candidate: the second
candidate stays unconsumed and no poll is ever made. -/
theorem construction_failure_abort_bug :
    (connect_addresses [infoB2, infoA2] 1 0 envIPv6Unsupported 5).1 =
        .failed [.constructionError "AF_INET6 not supported on this host"] ∧
    (connect_addresses [infoB2, infoA2] 1 0 envIPv6Unsupported 5).2.remaining =
        [infoA2] ∧
    (connect_addresses [infoB2, infoA2] 1 0 envIPv6Unsupported 5).2.polls = 0 ∧
    (connect_addresses [infoB2, infoA2] 1 0 envIPv6Unsupported 5).2.opened = [] := by
  refine ⟨?_, ?_, ?_, ?_⟩ <;> decide

/-- C3 counterexample: the claim says a zero/unset `timeout` never raises
the timeout error, *for every delay value* — but with `timeout = 0` and
`delay = 0`, one would-block candidate and a silent selector, the
`if delay == 0` check raises `TimeoutError` on the very first iteration. -/
theorem timeout_zero_delay_counterexample :
    (connect_addresses [infoA1] 0 0 envNeverReady 3).1 = .timedOut := by
  decide

/-- C3 (amended): the timeout error is tied to the poll delay reaching
zero, not to the timeout budget alone.  (i) With `timeout = 0` and any
non-zero `delay` the race never raises the timeout error (the delay is
never clamped).  (ii) With a non-zero `timeout`, a non-negative current
delay and the budget exhausted (`now - start ≥ timeout`) while attempts
are pending, an iteration whose poll harvests no winner raises the timeout
error; it is raised on its own — the `.timedOut` outcome carries none of
the recorded per-address errors. -/
theorem connect_addresses_timeout_amended :
    (∀ (addrs : List AddressInfoTuple) (delay : ℚ) (env : Env) (fuel : Nat),
      delay ≠ 0 → (connect_addresses addrs delay 0 env fuel).1 ≠ .timedOut) ∧
    (∀ (env : Env) (timeout : ℚ) (st : RaceState) (now : ℚ) (st' : RaceState),
      timeout ≠ 0 → 0 ≤ st.delay → timeout ≤ now - env.start → st.pending ≠ [] →
      harvest (pollState env timeout st now) (env.selectEvents st.polls) = .done st' →
      afterAdmit env timeout st now = .inr (.timedOut, st')) := by
  constructor
  · intro addrs delay env fuel hd
    exact raceRun_no_timeout env fuel (initState addrs delay) hd
  · intro env timeout st now st' ht hd hb hp hh
    have hzero : (pollState env timeout st now).delay = 0 := clampDelay_exhausted ht hd hb
    unfold afterAdmit
    rw [if_neg hp]
    simp only [hh, if_pos hzero]

/-- Witness for the amended C3: the never-timed-out half on an empty input
with delay 1, and the budget-exhausted half on a one-pending state at
`now = 5` with `timeout = 1`. -/
theorem connect_addresses_timeout_amended_witness :
    (connect_addresses [] 1 0 envNeverReady 1).1 ≠ .timedOut ∧
    afterAdmit envNeverReady 1 stOnePending 5 =
      .inr (.timedOut, pollState envNeverReady 1 stOnePending 5) :=
  ⟨connect_addresses_timeout_amended.1 [] 1 envNeverReady 1 (by norm_num),
    connect_addresses_timeout_amended.2 envNeverReady 1 stOnePending 5
      (pollState envNeverReady 1 stOnePending 5)
      (by norm_num) (by norm_num [stOnePending]) (by norm_num [envNeverReady])
      (by simp [stOnePending]) rfl⟩

/-- C6: when a connect attempt fails immediately with any error other than
would-block, the racer records the error tagged with the address, closes
that socket, and loops straight back to admit the next candidate — the
poll counter and the stagger delay are untouched, so no poll or delay wait
happens in between. -/
theorem connect_failure_recorded_and_continues (env : Env) (timeout : ℚ)
    (st : RaceState) (info : AddressInfoTuple) (rest : List AddressInfoTuple)
    (m : String) (hrem : st.remaining = info :: rest)
    (hf : env.factory st.attempted.length = .ok ())
    (hc : env.connect st.attempted.length = .failure m) :
    ∃ st', raceStep env timeout st = .inl st' ∧
      st'.remaining = rest ∧
      st'.exceptions = st.exceptions ++ [.connectError m info.sockaddr] ∧
      st'.closed = st.closed ++ [st.nextSock] ∧
      st'.opened = st.opened ++ [st.nextSock] ∧
      st'.pending = st.pending ∧
      st'.polls = st.polls ∧
      st'.delay = st.delay :=
  ⟨_, raceStep_connect_failure_eq env timeout hrem hf hc,
    rfl, rfl, rfl, rfl, rfl, rfl, rfl⟩

/-- Witness for C6: a refused connect on the candidate `infoA2`. -/
theorem connect_failure_recorded_and_continues_witness :
    ∃ st', raceStep envAllRefused 1 stNextCandidate = .inl st' ∧
      st'.remaining = [] ∧
      st'.exceptions =
        stNextCandidate.exceptions ++ [.connectError "ECONNREFUSED" infoA2.sockaddr] ∧
      st'.closed = stNextCandidate.closed ++ [stNextCandidate.nextSock] ∧
      st'.opened = stNextCandidate.opened ++ [stNextCandidate.nextSock] ∧
      st'.pending = stNextCandidate.pending ∧
      st'.polls = stNextCandidate.polls ∧
      st'.delay = stNextCandidate.delay :=
  connect_failure_recorded_and_continues envAllRefused 1 stNextCandidate infoA2 []
    "ECONNREFUSED" rfl rfl rfl

/-- C7: whenever a connection completes successfully — synchronously at
admit, or as an error-free write-ready socket at harvest — the racer
restores that socket to blocking mode and returns it immediately as the
single outcome; the other pending registrations are left in the state, and
the `finally:` cleanup (claim C1) closes them. -/
theorem connection_success_returns_blocking :
    (∀ (env : Env) (timeout : ℚ) (st : RaceState) (info : AddressInfoTuple)
        (rest : List AddressInfoTuple),
      st.remaining = info :: rest →
      env.factory st.attempted.length = .ok () →
      env.connect st.attempted.length = .success →
      ∃ st', raceStep env timeout st = .inr (.connected st.nextSock, st') ∧
        getMode st'.modes st.nextSock = some true ∧
        st'.pending = st.pending ∧ (cleanup st').pending = []) ∧
    (∀ (env : Env) (timeout : ℚ) (st : RaceState) (now : ℚ) (w : Nat)
        (st' : RaceState),
      st.pending ≠ [] →
      harvest (pollState env timeout st now) (env.selectEvents st.polls) =
        .success w st' →
      afterAdmit env timeout st now = .inr (.connected w, st') ∧
        getMode st'.modes w = some true ∧ (cleanup st').pending = []) := by
  constructor
  · intro env timeout st info rest hrem hf hc
    refine ⟨_, raceStep_connect_success_eq env timeout hrem hf hc, ?_, rfl, rfl⟩
    rw [getMode, if_pos rfl]
  · intro env timeout st now w st' hp hh
    refine ⟨?_, harvest_success_mode (env.selectEvents st.polls) _ w st' hh, rfl⟩
    unfold afterAdmit
    rw [if_neg hp]
    simp only [hh]

/-- Witness for C7: a synchronous success on `infoA2`, and a harvested
success of the pending socket 0. -/
theorem connection_success_returns_blocking_witness :
    (∃ st', raceStep envAllConnect 1 stNextCandidate =
        .inr (.connected stNextCandidate.nextSock, st') ∧
      getMode st'.modes stNextCandidate.nextSock = some true ∧
      st'.pending = stNextCandidate.pending ∧ (cleanup st').pending = []) ∧
    (afterAdmit envReadyNow 1 stOnePending 5 = .inr (.connected 0, stHarvested) ∧
      getMode stHarvested.modes 0 = some true ∧ (cleanup stHarvested).pending = []) :=
  ⟨connection_success_returns_blocking.1 envAllConnect 1 stNextCandidate infoA2 []
      rfl rfl rfl,
    connection_success_returns_blocking.2 envReadyNow 1 stOnePending 5 0 stHarvested
      (by simp [stOnePending]) rfl⟩

end HappyEyeballs
